import Mathlib

/-!
Shallow embedding of `appx-scanner` (`src/scanner.ts`, class `AppXScanner`)
and proofs about its component resolver, markup/delimiter checker, error
ledger and position reporting.

Modelling conventions:
* JS `Map` objects are embedded as association lists (`List (String × _)`)
  with `Map.set` / `Map.get` / `Map.has` / `Map.delete` semantics
  (`setA`, `lookupA`, `deleteA`): insertion order is preserved, a fresh key
  is appended at the end.
* JS strings are Lean `String`s; `String.prototype.includes` is `includes`
  below; `split('\n')` is `splitLines` on the character list.
* The filesystem, the parsed `app.json` page list, each component's parsed
  `usingComponents` table and each component's parsed markup (the pre-order
  node sequence produced by the external `xmlparse` library's `parseXml` +
  `traverse`, which is not part of this repository) are supplied by a
  `Project` record.
* The recursive `checkComponent` is embedded with an explicit fuel
  parameter (`checkComponentF`); the termination claim is settled by the
  theorem that any two sufficiently large fuels give the same result.
-/

namespace Appx

/-! ## Association-list operations with JS `Map` semantics -/

def lookupA {α : Type} : List (String × α) → String → Option α
  | [], _ => none
  | kv :: rest, k => if kv.1 = k then some kv.2 else lookupA rest k

/-- JS `Map.set`: replace in place if the key exists, otherwise append. -/
def setA {α : Type} : List (String × α) → String → α → List (String × α)
  | [], k, v => [(k, v)]
  | kv :: rest, k, v => if kv.1 = k then (k, v) :: rest else kv :: setA rest k v

/-- JS `Map.delete`: remove the (first) binding of the key. -/
def deleteA {α : Type} : List (String × α) → String → List (String × α)
  | [], _ => []
  | kv :: rest, k => if kv.1 = k then rest else kv :: deleteA rest k

/-! ## JS string helpers -/

/-- JS `a.includes(pat)` on character lists. -/
def listIncludes : List Char → List Char → Bool
  | [], pat => pat.isEmpty
  | c :: rest, pat => pat.isPrefixOf (c :: rest) || listIncludes rest pat

/-- JS `String.prototype.includes`. -/
def includes (s pat : String) : Bool := listIncludes s.data pat.data

/-- JS `s.split(sep)` for a one-character separator: always returns at
least one (possibly empty) part. -/
def splitOnChar (sep : Char) : List Char → List (List Char)
  | [] => [[]]
  | c :: rest =>
    if c = sep then [] :: splitOnChar sep rest
    else
      match splitOnChar sep rest with
      | [] => [[c]]
      | l :: ls => (c :: l) :: ls

/-- JS `input.split('\n')`. -/
def splitLines (l : List Char) : List (List Char) := splitOnChar '\n' l

/-- JS `String.prototype.startsWith`. -/
def startsWith (s pat : String) : Bool := pat.data.isPrefixOf s.data

/-- JS `String.prototype.endsWith`. -/
def endsWith (s pat : String) : Bool := pat.data.isSuffixOf s.data

/-! ## `reprStr` (scanner.ts lines 73-100)

`reprStr` turns a byte offset in the markup text into a 1-based
line/column plus a two-line excerpt.  The JS code indexes
`lines[line]` after the scanning loop; when the loop has walked past the
last line (which happens exactly when the offset exceeds the input
length) that access is `undefined` and the subsequent `.length` throws a
`TypeError`.  The embedding returns `Option`: `none` models the throw. -/

structure IErrorRef where
  line : Option Nat := none
  col : Option Nat := none
  message : Option String := none
  content : Option (List String) := none
  deriving DecidableEq, Repr

/-- The `while` loop of `reprStr`: returns the number of fully consumed
lines and the residual column. -/
def reprLoop : List (List Char) → Nat → Nat × Nat
  | [], col => (0, col)
  | l :: rest, col =>
    if l.length < col then
      let r := reprLoop rest (col - (l.length + 1))
      (r.1 + 1, r.2)
    else (0, col)

/-- Models `currentLine.slice(start, end).replace(/^\t+/, m => '  '.repeat(m.length))`:
each leading tab widened to two spaces. -/
def expandTabs : List Char → List Char
  | '\t' :: rest => ' ' :: ' ' :: expandTabs rest
  | l => l

/-- The caret-indentation loop: characters with code point above 127 and
tabs count double. -/
def cursorWidth (l : List Char) (start col : Nat) : Nat :=
  ((l.drop start).take (col - start)).foldl
    (fun acc c => acc + (if 127 < c.toNat ∨ c = '\t' then 2 else 1)) 0

def reprStr (input : String) (offset : Nat) (message : String) : Option IErrorRef :=
  let lines := splitLines input.data
  let lc := reprLoop lines offset
  if h : lc.1 < lines.length then
    let currentLine := lines.get ⟨lc.1, h⟩
    let start := lc.2 - 100
    let stop := min (lc.2 + 100) currentLine.length
    let codeLine := (if 0 < start then "...".data else []) ++
      expandTabs ((currentLine.drop start).take (stop - start))
    let cursor := (if 0 < start then 3 else 0) + cursorWidth currentLine start lc.2
    some { line := some (lc.1 + 1), col := some (lc.2 + 1), message := some message,
           content := some [String.mk codeLine,
                            String.mk (List.replicate cursor ' ' ++ ['^'])] }
  else none

/-- Wraps `reprStr` as invoked by the scanner.  Every scanner call site passes an
offset produced by the external markup parser, which always lies within the
parsed input, where `reprStr` is `some`; an out-of-range offset would throw
in the source, and the fallback record (reached only in that impossible
case) keeps the message. -/
def reprStrTotal (input : String) (offset : Nat) (message : String) : IErrorRef :=
  (reprStr input offset message).getD { message := some message }

/-! ## Syntax-node model (the `INode` shape used by the scanner)

The markup parser lives in the external `xmlparse` package; the scanner
only consumes the pre-order node sequence that `traverse` visits, so a
component's markup is modelled as that sequence. -/

structure Pos where
  start : Nat
  end' : Nat
  deriving DecidableEq, Repr

structure XAttr where
  value : Option String
  position : Pos
  deriving DecidableEq, Repr

inductive XNode where
  | element (name : String) (attrs : List XAttr) (posOpen : Option Pos)
  | text (value : String) (posOpen : Option Pos)
  | other
  deriving DecidableEq, Repr

def XNode.posOpen : XNode → Option Pos
  | XNode.element _ _ po => po
  | XNode.text _ po => po
  | XNode.other => none

/-- Models `(node.posOpen?.end || -1) + 1`: in JS both a missing position and an
`end` of `0` are falsy, yielding `-1 + 1 = 0`. -/
def offAfterOpen (posOpen : Option Pos) : Nat :=
  match posOpen with
  | none => 0
  | some pp => if pp.end' = 0 then 0 else pp.end' + 1

/-- Models `(node.posOpen?.start ?? -1) + 1`: `??` only catches a missing
position, a `start` of `0` gives `1`. -/
def offAtOpen (posOpen : Option Pos) : Nat :=
  match posOpen with
  | none => 0
  | some pp => pp.start + 1

/-! ## Scanner data model (`scanner.ts` interfaces) -/

structure IDependency where
  node : XNode
  modulePath : Option String := none
  deriving DecidableEq, Repr

structure Defs where
  components : List (String × String)
  deriving DecidableEq, Repr

structure IComponent where
  entry : String
  deps : List IDependency
  defs : Option Defs := none
  deriving DecidableEq, Repr

inductive Sev where
  | fatal
  | warning
  deriving DecidableEq, Repr

abbrev Bucket := List (String × List IErrorRef)

structure Errors where
  fatal : Bucket
  warning : Bucket
  deriving DecidableEq, Repr

structure ScanState where
  components : List (String × IComponent)
  errors : Errors
  pages : List String
  deriving DecidableEq, Repr

/-- A project tree as the scanner observes it: the set of existing files
(root-relative, in `walk` order), the page list parsed from `app.json`,
and per logical path the parsed `usingComponents` table of `<path>.json`
and the parsed markup of `<path>.axml` (content text, pre-order node
sequence, parser warnings as offset/message pairs). -/
structure Markup where
  content : String
  nodes : List XNode
  warnings : List (Nat × String)

structure Project where
  files : List String
  pages : List String
  usingComponents : String → List (String × String)
  markup : String → Markup

def builtIns : List String :=
  ["block", "button", "canvas", "checkbox", "checkbox-group", "cover-image",
   "cover-view", "form", "icon", "image", "import-sjs", "input", "label",
   "lottie", "map", "movable-area", "movable-view", "navigator", "page-meta",
   "picker", "picker-view", "picker-view-column", "progress", "radio",
   "radio-group", "rich-text", "scroll-view", "slider", "slot", "swiper",
   "swiper-item", "switch", "template", "text", "textarea", "video", "view",
   "web-view"]

/-! ## Error ledger (`errors` field; `addError`, scanner.ts 287-295) -/

/-- Models `errors[type].get(entry)` or a fresh list, then `push`: append to the
existing key's list, or append a new key at the end. -/
def pushAt : Bucket → String → List IErrorRef → Bucket
  | [], entry, rs => [(entry, rs)]
  | kv :: rest, entry, rs =>
    if kv.1 = entry then (kv.1, kv.2 ++ rs) :: rest else kv :: pushAt rest entry rs

def addError (errs : Errors) (entry : String) (rs : List IErrorRef) : Sev → Errors
  | Sev.fatal => { errs with fatal := pushAt errs.fatal entry rs }
  | Sev.warning => { errs with warning := pushAt errs.warning entry rs }

def emptyErrors : Errors := { fatal := [], warning := [] }

/-! ## File checks (`assertFile`, `checkComponent` lines 300-308) -/

def fileExists (p : Project) (f : String) : Bool := p.files.contains f

/-- The four sequential `assertFile` calls inside `try`: the first missing
sibling file throws `Expect file: <name>` and aborts the block. -/
def firstMissing (p : Project) (entry : String) : Option String :=
  if !fileExists p (entry ++ ".json") then some (entry ++ ".json")
  else if !fileExists p (entry ++ ".js") then some (entry ++ ".js")
  else if !fileExists p (entry ++ ".axml") then some (entry ++ ".axml")
  else if !fileExists p (entry ++ ".acss") then some (entry ++ ".acss")
  else none

/-! ## Path handling (`path.dirname` / `path.join` from the Deno std
posix path module, as used on the root-relative entry paths) -/

def splitSlash (s : String) : List String := (splitOnChar '/' s.data).map String.mk

def dirname (s : String) : String :=
  let parts := splitSlash s
  if parts.length ≤ 1 then "." else String.intercalate "/" parts.dropLast

def normSegs (segs : List String) : List String :=
  segs.foldl (fun acc seg =>
    if seg = "" ∨ seg = "." then acc
    else if seg = ".." then
      match acc.getLast? with
      | some last => if last = ".." then acc ++ [".."] else acc.dropLast
      | none => acc ++ [".."]
    else acc ++ [seg]) []

/-- posix `path.join(a, b)` for the relative paths this scanner produces
(a component directory joined with a `./`- or `../`-style alias value). -/
def pathJoin (a b : String) : String :=
  let n := normSegs (splitSlash a ++ splitSlash b)
  if n.isEmpty then "." else String.intercalate "/" n

/-! ## `extractDefinitions` (scanner.ts 353-373) -/

/-- The three addressing modes of an alias value. -/
def resolveAlias (entry value : String) : String :=
  if startsWith value "/" then value.drop 1
  else if startsWith value "." then pathJoin (dirname entry) value
  else "node_modules/" ++ value

def defStep (p : Project) (entry : String)
    (acc : List (String × String) × Errors) (kv : String × String) :
    List (String × String) × Errors :=
  let modulePath := resolveAlias entry kv.2
  if fileExists p (modulePath ++ ".json") then (setA acc.1 kv.1 modulePath, acc.2)
  else (acc.1, addError acc.2 entry
    [{ message := some ("Component not found: " ++ kv.1) }] Sev.fatal)

def extractDefinitions (p : Project) (entry : String) (errs : Errors) :
    Defs × Errors :=
  let r := (p.usingComponents entry).foldl (defStep p entry) ([], errs)
  (⟨r.1⟩, r.2)

/-! ## `extractComponents` (scanner.ts 375-415) -/

/-- Models `value.includes('\x7b\x7b') !== value.includes('\x7d\x7d')`. -/
def mismatch (v : String) : Bool :=
  includes v "\x7b\x7b" != includes v "\x7d\x7d"

/-- The delimiter check on one attribute of a visited element. -/
def attrStep (entry content : String) (errs : Errors) (a : XAttr) : Errors :=
  match a.value with
  | some v =>
    if mismatch v then
      addError errs entry [reprStrTotal content a.position.end' "Unmatched brackets"]
        Sev.warning
    else errs
  | none => errs

/-- One `traverse` visit: collect the first occurrence of each element
name and record an `Unmatched brackets` warning for every attribute value
or text value whose interpolation markers disagree in presence. -/
def traverseStep (entry content : String)
    (acc : List (String × XNode) × Errors) (node : XNode) :
    List (String × XNode) × Errors :=
  match node with
  | XNode.element name attrs _ =>
    if name = "" then acc
    else (if (lookupA acc.1 name).isSome then acc.1 else acc.1 ++ [(name, node)],
          attrs.foldl (attrStep entry content) acc.2)
  | XNode.text v posOpen =>
    if v ≠ "" ∧ mismatch v then
      (acc.1, addError acc.2 entry
        [reprStrTotal content (offAfterOpen posOpen) "Unmatched brackets"] Sev.warning)
    else acc
  | XNode.other => acc

/-- The dependency-name collection alone (first occurrence per distinct
element name, in document order). -/
def depStep (acc : List (String × XNode)) (node : XNode) : List (String × XNode) :=
  match node with
  | XNode.element name _ _ =>
    if name = "" then acc
    else if (lookupA acc name).isSome then acc else acc ++ [(name, node)]
  | _ => acc

def depsOf (nodes : List XNode) : List (String × XNode) := nodes.foldl depStep []

/-- One step of the resolution loop over the distinct element names:
built-in vocabulary first, then the definitions map (removing the alias
from the unused copy), else a fatal `Undefined component` error. -/
def resolveStep (entry content : String) (defs : List (String × String))
    (acc : List IDependency × List (String × String) × Errors) (nd : String × XNode) :
    List IDependency × List (String × String) × Errors :=
  if builtIns.contains nd.1 then
    (acc.1 ++ [{ node := nd.2, modulePath := some ("@@/" ++ nd.1) }], acc.2.1, acc.2.2)
  else
    match lookupA defs nd.1 with
    | some mp => (acc.1 ++ [{ node := nd.2, modulePath := some mp }],
        deleteA acc.2.1 nd.1, acc.2.2)
    | none => (acc.1 ++ [{ node := nd.2, modulePath := none }], acc.2.1,
        addError acc.2.2 entry
          [reprStrTotal content (offAtOpen nd.2.posOpen) ("Undefined component: " ++ nd.1)]
          Sev.fatal)

/-- The value an element name resolves to in the returned dependency list. -/
def resolveOne (defs : List (String × String)) (nd : String × XNode) : IDependency :=
  if builtIns.contains nd.1 then { node := nd.2, modulePath := some ("@@/" ++ nd.1) }
  else
    match lookupA defs nd.1 with
    | some mp => { node := nd.2, modulePath := some mp }
    | none => { node := nd.2, modulePath := none }

/-- One `Unused definition` warning for an alias left in the unused copy
of the definitions map. -/
def unusedDefStep (entry : String) (e : Errors) (kv : String × String) : Errors :=
  addError e entry [{ message := some ("Unused definition: " ++ kv.1) }] Sev.warning

def extractComponents (p : Project) (entry : String) (defs : Defs) (errs : Errors) :
    List IDependency × Errors :=
  let mk := p.markup entry
  let errs := if mk.warnings.isEmpty then errs
    else addError errs entry (mk.warnings.map fun w => reprStrTotal mk.content w.1 w.2)
      Sev.warning
  let de := mk.nodes.foldl (traverseStep entry mk.content) ([], errs)
  let rz := de.1.foldl (resolveStep entry mk.content defs.components)
    ([], defs.components, de.2)
  (rz.1, rz.2.1.foldl (unusedDefStep entry) rz.2.2)

/-! ## `checkComponent` (scanner.ts 297-331) with explicit fuel -/

def hasComp (s : ScanState) (k : String) : Bool := (lookupA s.components k).isSome

/-- The missing-sibling-file branch: one error through `addError`'s
default `'warning'` severity (line 306 passes no type), then a component
with no dependencies. -/
def insertMissing (s : ScanState) (entry name : String) : ScanState :=
  { s with
    errors := addError s.errors entry
      [{ message := some ("Expect file: " ++ name) }] Sev.warning,
    components := setA s.components entry { entry := entry, deps := [] } }

/-- The successful branch up to the recursive loop: parse definitions,
parse and resolve the markup, record the component. -/
def insertChecked (p : Project) (s : ScanState) (entry : String) :
    ScanState × List (String × String) :=
  let dz := extractDefinitions p entry s.errors
  let ez := extractComponents p entry dz.1 dz.2
  ({ s with
      errors := ez.2,
      components := setA s.components entry
        { entry := entry, deps := ez.1, defs := some dz.1 } },
   dz.1.components)

def checkComponentF : Nat → Project → ScanState → String → ScanState
  | 0, _, s, _ => s
  | fuel + 1, p, s, entry =>
    if hasComp s entry then s
    else
      match firstMissing p entry with
      | some name => insertMissing s entry name
      | none =>
        let r := insertChecked p s entry
        r.2.foldl (fun s' kv =>
          if hasComp s' kv.2 then s' else checkComponentF fuel p s' kv.2) r.1

/-- The recursion over the definition-map targets (scanner.ts 327-329). -/
def checkDepsF (fuel : Nat) (p : Project) (s : ScanState)
    (l : List (String × String)) : ScanState :=
  l.foldl (fun s' kv =>
    if hasComp s' kv.2 then s' else checkComponentF fuel p s' kv.2) s

/-! ## The run (`check`, `checkApp`, `checkUnused`; scanner.ts 142-196) -/

/-- How much fuel a run needs: more than the number of project files,
which bounds the number of insertable components. -/
def fuelOf (p : Project) : Nat := p.files.length + 1

/-- One iteration of `checkApp`'s page loop: `this.pages.add(page)` then
`checkComponent(page)`. -/
def appStep (p : Project) (s : ScanState) (page : String) : ScanState :=
  checkComponentF (fuelOf p) p
    { s with pages := if s.pages.contains page then s.pages
                      else s.pages ++ [page] } page

def checkApp (p : Project) (s : ScanState) : ScanState :=
  p.pages.foldl (appStep p) s

/-- One `walk` entry of the orphan scan: skip `node_modules` paths, and
collect the logical path of any other `.axml` file that is not in the
component map (the `unused` object is a `Set`: no duplicates). -/
def orphanStep (s : ScanState) (acc : List String) (f : String) : List String :=
  if includes ("/" ++ f) "/node_modules/" then acc
  else if endsWith f ".axml" then
    let ce := f.dropRight 5
    if hasComp s ce || acc.contains ce then acc else acc ++ [ce]
  else acc

/-- The orphan scan: every `.axml` below the root (skipping
`node_modules`) whose logical path is not in the component map. -/
def unusedList (p : Project) (s : ScanState) : List String :=
  p.files.foldl (orphanStep s) []

/-- One `addError` of the orphan report, under the synthetic summary key. -/
def unusedStep (title : String) (s : ScanState) (e : String) : ScanState :=
  { s with errors := addError s.errors title [{ message := some e }] Sev.warning }

def checkUnused (p : Project) (s : ScanState) : ScanState :=
  let unused := unusedList p s
  if 0 < unused.length then
    unused.foldl (unusedStep (toString unused.length ++ " extraneous components are found")) s
  else s

/-- Models `check()` line 143: only the error ledger is replaced; the component
map and page set persist. -/
def resetErrors (s : ScanState) : ScanState := { s with errors := emptyErrors }

/-- One `check()` invocation (console output and the presentation-only
hierarchy/graph generation mutate neither the component map nor the
ledger and are not modelled). -/
def check (p : Project) (s : ScanState) : ScanState :=
  checkUnused p (checkApp p (resetErrors s))

/-- The scanner state right after the constructor. -/
def initState : ScanState :=
  { components := [], errors := emptyErrors, pages := [] }

/-! ## Concrete projects used by witnesses and counterexamples -/

/-- A project whose two components reference each other through their
manifests and markup: `pages/a` uses `<b/>` aliased to `/pages/b`, and
`pages/b` uses `<a/>` aliased to `/pages/a`. -/
def cycProj : Project where
  files := ["app.json",
    "pages/a.json", "pages/a.js", "pages/a.axml", "pages/a.acss",
    "pages/b.json", "pages/b.js", "pages/b.axml", "pages/b.acss"]
  pages := ["pages/a"]
  usingComponents := fun e =>
    if e = "pages/a" then [("b", "/pages/b")]
    else if e = "pages/b" then [("a", "/pages/a")]
    else []
  markup := fun e =>
    if e = "pages/a" then
      { content := "<b/>", nodes := [XNode.element "b" [] (some ⟨0, 3⟩)], warnings := [] }
    else if e = "pages/b" then
      { content := "<a/>", nodes := [XNode.element "a" [] (some ⟨0, 3⟩)], warnings := [] }
    else { content := "", nodes := [], warnings := [] }

/-- A project whose single page `pages/a` is missing its `.acss` sibling. -/
def missProj : Project where
  files := ["app.json", "pages/a.json", "pages/a.js", "pages/a.axml"]
  pages := ["pages/a"]
  usingComponents := fun _ => []
  markup := fun _ => { content := "", nodes := [], warnings := [] }

/-- Markup fixtures for the delimiter-balance boundary cases: a lone
open marker, a balanced pair, and two open markers with one close
marker. -/
def bracketProj : Project where
  files := []
  pages := []
  usingComponents := fun _ => []
  markup := fun e =>
    if e = "pages/two" then
      { content := "<v>\x7b\x7bx\x7d\x7d\x7b\x7by</v>",
        nodes := [XNode.text "\x7b\x7bx\x7d\x7d\x7b\x7by" (some ⟨0, 2⟩)],
        warnings := [] }
    else if e = "pages/open" then
      { content := "<v>\x7b\x7b</v>",
        nodes := [XNode.text "\x7b\x7b" (some ⟨0, 2⟩)], warnings := [] }
    else
      { content := "<v>\x7b\x7bx\x7d\x7d</v>",
        nodes := [XNode.text "\x7b\x7bx\x7d\x7d" (some ⟨0, 2⟩)], warnings := [] }

/-- The records with a given message filed under a given key of a
severity bucket. -/
def msgRecs (b : Bucket) (entry msg : String) : List IErrorRef :=
  ((lookupA b entry).getD []).filter (fun r => r.message == some msg)

/-- How many records with a given message a bucket holds under a key. -/
def msgCount (b : Bucket) (entry msg : String) : Nat :=
  (msgRecs b entry msg).length

/-- Termination measure: the number of project files that are not the
manifest of a component already present in the map.  Every recursive
`checkComponent` call beyond an already-present path first passes the
`<entry>.json` existence check and then inserts `entry`, so this measure
strictly decreases before the recursion into the dependency targets. -/
def missing (p : Project) (s : ScanState) : Nat :=
  (p.files.filter
    (fun f => !(s.components.any (fun kv => kv.1 ++ ".json" == f)))).length

/-- Modulo a pending list `P`, every definition-map target of every
component recorded in the map is itself in the component map. -/
def InvP (s : ScanState) (P : List String) : Prop :=
  ∀ kv ∈ s.components, ∀ d : Defs, kv.2.defs = some d →
    ∀ ab ∈ d.components, hasComp s ab.2 = true ∨ ab.2 ∈ P

/-- A project with one alias of each addressing mode: a relative alias
whose target manifest exists and a bare alias whose manifest does not. -/
def aliasProj : Project where
  files := ["app.json", "pages/a.json", "pages/a.js", "pages/a.axml", "pages/a.acss",
    "pages/widgets/bar.json", "pages/widgets/bar.js", "pages/widgets/bar.axml",
    "pages/widgets/bar.acss"]
  pages := ["pages/a"]
  usingComponents := fun e =>
    if e = "pages/a" then [("bar", "./widgets/bar"), ("nope", "missing")] else []
  markup := fun _ => { content := "", nodes := [], warnings := [] }

/-- A project whose page markup references `<foo/>`, a name that is
neither built in nor aliased. -/
def undefProj : Project where
  files := ["app.json", "pages/a.json", "pages/a.js", "pages/a.axml", "pages/a.acss"]
  pages := ["pages/a"]
  usingComponents := fun _ => []
  markup := fun e =>
    if e = "pages/a" then
      { content := "<foo/>", nodes := [XNode.element "foo" [] (some ⟨0, 5⟩)],
        warnings := [] }
    else { content := "", nodes := [], warnings := [] }

/-- A project whose page declares an alias `view` that collides with the
built-in element `view` and whose markup uses `<view/>`. -/
def shadowProj : Project where
  files := ["app.json", "pages/a.json", "pages/a.js", "pages/a.axml", "pages/a.acss",
    "pages/v.json", "pages/v.js", "pages/v.axml", "pages/v.acss"]
  pages := ["pages/a"]
  usingComponents := fun e => if e = "pages/a" then [("view", "/pages/v")] else []
  markup := fun e =>
    if e = "pages/a" then
      { content := "<view/>", nodes := [XNode.element "view" [] (some ⟨0, 6⟩)],
        warnings := [] }
    else { content := "", nodes := [], warnings := [] }

/-- A project whose page declares an alias `c` that no markup element
ever references; the target `pages/c` exists on disk. -/
def unusedAliasProj : Project where
  files := ["app.json", "pages/a.json", "pages/a.js", "pages/a.axml", "pages/a.acss",
    "pages/c.json", "pages/c.js", "pages/c.axml", "pages/c.acss"]
  pages := ["pages/a"]
  usingComponents := fun e => if e = "pages/a" then [("c", "/pages/c")] else []
  markup := fun _ => { content := "", nodes := [], warnings := [] }

/-! ## String facts -/

theorem string_append_left_cancel {pre a b : String} (h : pre ++ a = pre ++ b) :
    a = b := by
  have h2 := congrArg String.data h
  simp only [String.data_append] at h2
  have h3 := List.append_cancel_left h2
  cases a; cases b; exact congrArg String.mk h3

theorem string_append_right_cancel {a b suf : String} (h : a ++ suf = b ++ suf) :
    a = b := by
  have h2 := congrArg String.data h
  simp only [String.data_append] at h2
  have h3 := List.append_cancel_right h2
  cases a; cases b; exact congrArg String.mk h3

theorem unused_ne_unmatched (k : String) :
    ("Unused definition: " ++ k) ≠ "Unmatched brackets" := by
  intro h
  have h2 := congrArg String.length h
  rw [String.length_append] at h2
  have e1 : ("Unused definition: " : String).length = 19 := by decide
  have e2 : ("Unmatched brackets" : String).length = 18 := by decide
  rw [e1, e2] at h2
  omega

/-! ## Association-list lemmas -/

theorem lookupA_setA {α : Type} (m : List (String × α)) (a k : String) (v : α) :
    lookupA (setA m a v) k = if a = k then some v else lookupA m k := by
  induction m with
  | nil => simp [setA, lookupA, eq_comm]
  | cons kv rest ih =>
    by_cases h : kv.1 = a
    · by_cases hk : a = k
      · simp [setA, lookupA, h, hk]
      · have : kv.1 ≠ k := by rw [h]; exact hk
        simp [setA, lookupA, h, hk, this]
    · by_cases hk : kv.1 = k
      · have h2 : a ≠ k := by rw [← hk]; exact fun e => h e.symm
        simp [setA, lookupA, h, hk, h2, h2.symm]
      · simp [setA, lookupA, h, hk, ih]

theorem setA_of_lookupA_none {α : Type} {m : List (String × α)} {k : String}
    (h : lookupA m k = none) (v : α) : setA m k v = m ++ [(k, v)] := by
  induction m with
  | nil => simp [setA]
  | cons kv rest ih =>
    by_cases hk : kv.1 = k
    · simp [lookupA, hk] at h
    · simp only [lookupA, hk, if_false] at h
      simp [setA, hk, ih h]

theorem lookupA_append {α : Type} (l t : List (String × α)) (k : String) :
    lookupA (l ++ t) k =
      match lookupA l k with
      | some v => some v
      | none => lookupA t k := by
  induction l with
  | nil => simp [lookupA]
  | cons kv rest ih =>
    by_cases hk : kv.1 = k
    · simp [lookupA, hk]
    · simp [lookupA, hk, ih]

theorem lookupA_isSome_append {α : Type} {l : List (String × α)} {k : String}
    (t : List (String × α)) (h : (lookupA l k).isSome = true) :
    lookupA (l ++ t) k = lookupA l k := by
  rw [lookupA_append]
  cases hv : lookupA l k with
  | none => rw [hv] at h; simp at h
  | some v => simp

theorem lookupA_isSome_of_mem {α : Type} {m : List (String × α)} {k : String}
    {v : α} (h : (k, v) ∈ m) : (lookupA m k).isSome = true := by
  induction m with
  | nil => simp at h
  | cons kv rest ih =>
    rcases List.mem_cons.mp h with h1 | h1
    · simp [lookupA, ← h1]
    · by_cases hk : kv.1 = k
      · simp [lookupA, hk]
      · simp [lookupA, hk, ih h1]

theorem mem_of_lookupA_eq_some {α : Type} {m : List (String × α)} {k : String}
    {v : α} (h : lookupA m k = some v) : (k, v) ∈ m := by
  induction m with
  | nil => simp [lookupA] at h
  | cons kv rest ih =>
    by_cases hk : kv.1 = k
    · simp only [lookupA, hk, if_true, Option.some.injEq] at h
      have hkv : (k, v) = kv := by cases kv; simp_all
      exact List.mem_cons.mpr (Or.inl hkv)
    · simp only [lookupA, hk, if_false] at h
      exact List.mem_cons_of_mem _ (ih h)

theorem lookupA_eq_none_of_not_mem_keys {α : Type} {m : List (String × α)}
    {k : String} (h : k ∉ m.map Prod.fst) : lookupA m k = none := by
  induction m with
  | nil => rfl
  | cons kv rest ih =>
    simp only [List.map_cons, List.mem_cons] at h
    push_neg at h
    have : kv.1 ≠ k := fun e => h.1 e.symm
    simp [lookupA, this, ih h.2]

theorem not_mem_keys_of_lookupA_eq_none {α : Type} {m : List (String × α)}
    {k : String} (h : lookupA m k = none) : k ∉ m.map Prod.fst := by
  induction m with
  | nil => simp
  | cons kv rest ih =>
    by_cases hk : kv.1 = k
    · simp [lookupA, hk] at h
    · simp only [lookupA, hk, if_false] at h
      simp only [List.map_cons, List.mem_cons]
      push_neg
      exact ⟨fun e => hk e.symm, ih h⟩

theorem lookupA_deleteA_ne {α : Type} (m : List (String × α)) {a k : String}
    (h : a ≠ k) : lookupA (deleteA m a) k = lookupA m k := by
  induction m with
  | nil => rfl
  | cons kv rest ih =>
    by_cases ha : kv.1 = a
    · have : kv.1 ≠ k := by rw [ha]; exact h
      simp [deleteA, lookupA, ha, this, h]
    · by_cases hk : kv.1 = k
      · simp [deleteA, lookupA, ha, hk, h.symm]
      · simp [deleteA, lookupA, ha, hk, ih]

theorem mem_deleteA {α : Type} {m : List (String × α)} {x : String × α}
    {a : String} (h : x ∈ deleteA m a) : x ∈ m := by
  induction m with
  | nil => simp [deleteA] at h
  | cons kv rest ih =>
    by_cases ha : kv.1 = a
    · simp only [deleteA, ha, if_true] at h
      exact List.mem_cons_of_mem _ h
    · simp only [deleteA, ha, if_false] at h
      rcases List.mem_cons.mp h with h1 | h1
      · exact h1 ▸ List.mem_cons_self _ _
      · exact List.mem_cons_of_mem _ (ih h1)

/-! ## Error-bucket lemmas -/

theorem lookupA_pushAt_self (b : Bucket) (e : String) (rs : List IErrorRef) :
    lookupA (pushAt b e rs) e = some ((lookupA b e).getD [] ++ rs) := by
  induction b with
  | nil => simp [pushAt, lookupA]
  | cons kv rest ih =>
    by_cases he : kv.1 = e
    · simp [pushAt, lookupA, he]
    · simp [pushAt, lookupA, he, ih]

theorem lookupA_pushAt_ne (b : Bucket) {e e' : String} (rs : List IErrorRef)
    (h : e ≠ e') : lookupA (pushAt b e rs) e' = lookupA b e' := by
  induction b with
  | nil => simp [pushAt, lookupA, h]
  | cons kv rest ih =>
    by_cases he : kv.1 = e
    · have : kv.1 ≠ e' := by rw [he]; exact h
      simp [pushAt, lookupA, he, this, h]
    · by_cases he' : kv.1 = e'
      · simp [pushAt, lookupA, he, he', h.symm]
      · simp [pushAt, lookupA, he, he', ih]

theorem msgRecs_pushAt_self (b : Bucket) (e m : String) (rs : List IErrorRef) :
    msgRecs (pushAt b e rs) e m =
      msgRecs b e m ++ rs.filter (fun r => r.message == some m) := by
  simp [msgRecs, lookupA_pushAt_self, List.filter_append]

theorem msgRecs_pushAt_ne (b : Bucket) {e e' : String} (m : String)
    (rs : List IErrorRef) (h : e ≠ e') :
    msgRecs (pushAt b e rs) e' m = msgRecs b e' m := by
  simp [msgRecs, lookupA_pushAt_ne b rs h]

theorem msgRecs_addError_fatal (errs : Errors) (e e' m : String)
    (rs : List IErrorRef) :
    msgRecs (addError errs e rs Sev.fatal).fatal e' m =
      if e = e' then msgRecs errs.fatal e' m ++ rs.filter (fun r => r.message == some m)
      else msgRecs errs.fatal e' m := by
  by_cases h : e = e'
  · subst h; simp [addError, msgRecs_pushAt_self]
  · simp [addError, msgRecs_pushAt_ne _ _ rs h, h]

theorem fatal_addError_warning (errs : Errors) (e : String) (rs : List IErrorRef) :
    (addError errs e rs Sev.warning).fatal = errs.fatal := rfl

theorem warning_addError_fatal (errs : Errors) (e : String) (rs : List IErrorRef) :
    (addError errs e rs Sev.fatal).warning = errs.warning := rfl

/-! ## `reprStr` lemmas -/

theorem splitOnChar_ne_nil (sep : Char) (l : List Char) : splitOnChar sep l ≠ [] := by
  cases l with
  | nil => simp [splitOnChar]
  | cons c rest =>
    by_cases h : c = sep
    · simp [splitOnChar, h]
    · simp only [splitOnChar, h, if_false]
      cases splitOnChar sep rest <;> simp

/-- Each split part plus its separator accounts for the input and one
trailing sentinel: the lengths of the parts, each counted with one
newline, sum to the input length plus one. -/
theorem splitOnChar_linesSum (sep : Char) (l : List Char) :
    ((splitOnChar sep l).map (fun x => x.length + 1)).sum = l.length + 1 := by
  induction l with
  | nil => simp [splitOnChar]
  | cons c rest ih =>
    by_cases h : c = sep
    · simp only [splitOnChar, h, if_true, List.map_cons, List.sum_cons, List.length_cons,
        List.length_nil, ih]
      omega
    · simp only [splitOnChar, h, if_false]
      cases hs : splitOnChar sep rest with
      | nil => exact absurd hs (splitOnChar_ne_nil sep rest)
      | cons l0 ls =>
        rw [hs] at ih
        simp only [List.map_cons, List.sum_cons, List.length_cons] at ih ⊢
        omega

theorem reprLoop_lt {lines : List (List Char)} {col : Nat}
    (h : col + 1 ≤ (lines.map (fun x => x.length + 1)).sum) :
    (reprLoop lines col).1 < lines.length := by
  induction lines generalizing col with
  | nil => simp at h
  | cons l rest ih =>
    simp only [List.map_cons, List.sum_cons] at h
    by_cases hc : l.length < col
    · simp only [reprLoop, hc, if_true, List.length_cons]
      have := @ih (col - (l.length + 1)) (by omega)
      omega
    · simp [reprLoop, hc]

theorem reprLoop_eq_length {lines : List (List Char)} {col : Nat}
    (h : (lines.map (fun x => x.length + 1)).sum ≤ col) :
    (reprLoop lines col).1 = lines.length := by
  induction lines generalizing col with
  | nil => simp [reprLoop]
  | cons l rest ih =>
    simp only [List.map_cons, List.sum_cons] at h
    have hc : l.length < col := by omega
    simp only [reprLoop, hc, if_true, List.length_cons]
    have := @ih (col - (l.length + 1)) (by omega)
    omega

/-! ## Unfolding equations for the recursive resolver -/

theorem checkComponentF_zero (p : Project) (s : ScanState) (e : String) :
    checkComponentF 0 p s e = s := rfl

theorem checkComponentF_succ (fuel : Nat) (p : Project) (s : ScanState)
    (entry : String) :
    checkComponentF (fuel + 1) p s entry =
      if hasComp s entry then s
      else
        match firstMissing p entry with
        | some name => insertMissing s entry name
        | none => checkDepsF fuel p (insertChecked p s entry).1
            (insertChecked p s entry).2 := rfl

theorem checkDepsF_nil (fuel : Nat) (p : Project) (s : ScanState) :
    checkDepsF fuel p s [] = s := rfl

theorem checkDepsF_cons (fuel : Nat) (p : Project) (s : ScanState)
    (kv : String × String) (l : List (String × String)) :
    checkDepsF fuel p s (kv :: l) =
      checkDepsF fuel p
        (if hasComp s kv.2 then s else checkComponentF fuel p s kv.2) l := rfl

/-! ## The resolver only grows the component map -/

theorem components_insertChecked (p : Project) (s : ScanState) (entry : String) :
    (insertChecked p s entry).1.components =
      setA s.components entry
        { entry := entry,
          deps := (extractComponents p entry (extractDefinitions p entry s.errors).1
            (extractDefinitions p entry s.errors).2).1,
          defs := some (extractDefinitions p entry s.errors).1 } := rfl

theorem pages_insertChecked (p : Project) (s : ScanState) (entry : String) :
    (insertChecked p s entry).1.pages = s.pages := rfl

theorem lookupA_none_of_hasComp_false {s : ScanState} {e : String}
    (h : hasComp s e = false) : lookupA s.components e = none := by
  unfold hasComp at h
  cases hv : lookupA s.components e with
  | none => rfl
  | some v => rw [hv] at h; simp at h

theorem components_extend_checkDepsF {fuel : Nat} {p : Project}
    (hc : ∀ s e, ∃ t, (checkComponentF fuel p s e).components = s.components ++ t) :
    ∀ (l : List (String × String)) (s : ScanState),
      ∃ t, (checkDepsF fuel p s l).components = s.components ++ t := by
  intro l
  induction l with
  | nil => intro s; exact ⟨[], by simp [checkDepsF_nil]⟩
  | cons kv rest ih =>
    intro s
    rw [checkDepsF_cons]
    by_cases h : hasComp s kv.2 = true
    · simpa [h] using ih s
    · obtain ⟨t1, ht1⟩ := hc s kv.2
      obtain ⟨t2, ht2⟩ := ih (checkComponentF fuel p s kv.2)
      refine ⟨t1 ++ t2, ?_⟩
      simp only [h, if_false, Bool.false_eq_true]
      rw [ht2, ht1, List.append_assoc]

theorem components_extend_checkComponentF (fuel : Nat) (p : Project) :
    ∀ (s : ScanState) (e : String),
      ∃ t, (checkComponentF fuel p s e).components = s.components ++ t := by
  induction fuel with
  | zero => intro s e; exact ⟨[], by simp [checkComponentF_zero]⟩
  | succ fuel ih =>
    intro s entry
    rw [checkComponentF_succ]
    by_cases h : hasComp s entry = true
    · exact ⟨[], by simp [h]⟩
    · have hnone := lookupA_none_of_hasComp_false (by simpa using h)
      cases hm : firstMissing p entry with
      | some name =>
        refine ⟨[(entry, { entry := entry, deps := [] })], ?_⟩
        simp [h, insertMissing, setA_of_lookupA_none hnone]
      | none =>
        obtain ⟨t, ht⟩ := components_extend_checkDepsF ih
          (insertChecked p s entry).2 (insertChecked p s entry).1
        rw [components_insertChecked, setA_of_lookupA_none hnone,
          List.append_assoc] at ht
        simp only [h, if_false, Bool.false_eq_true]
        exact ⟨_, ht⟩

theorem hasComp_mono {fuel : Nat} {p : Project} {s : ScanState} {e k : String}
    (h : hasComp s k = true) : hasComp (checkComponentF fuel p s e) k = true := by
  obtain ⟨t, ht⟩ := components_extend_checkComponentF fuel p s e
  unfold hasComp at h ⊢
  rw [ht, lookupA_isSome_append t h]
  exact h

theorem hasComp_mono_deps {fuel : Nat} {p : Project} {s : ScanState}
    {l : List (String × String)} {k : String} (h : hasComp s k = true) :
    hasComp (checkDepsF fuel p s l) k = true := by
  obtain ⟨t, ht⟩ := components_extend_checkDepsF
    (components_extend_checkComponentF fuel p) l s
  unfold hasComp at h ⊢
  rw [ht, lookupA_isSome_append t h]
  exact h

theorem checkComponentF_noop {s : ScanState} {e : String}
    (h : hasComp s e = true) (fuel : Nat) (p : Project) :
    checkComponentF fuel p s e = s := by
  cases fuel with
  | zero => rfl
  | succ f => rw [checkComponentF_succ]; simp [h]

theorem hasComp_self {fuel : Nat} (p : Project) (s : ScanState) (e : String)
    (hf : 1 ≤ fuel) : hasComp (checkComponentF fuel p s e) e = true := by
  cases fuel with
  | zero => omega
  | succ f =>
    rw [checkComponentF_succ]
    by_cases h : hasComp s e = true
    · simp [h]
    · have hnone := lookupA_none_of_hasComp_false (by simpa using h)
      cases hm : firstMissing p e with
      | some name =>
        simp only [h, if_false, Bool.false_eq_true, hm]
        unfold hasComp insertMissing
        simp [lookupA_setA]
      | none =>
        simp only [h, if_false, Bool.false_eq_true, hm]
        apply hasComp_mono_deps
        unfold hasComp
        rw [components_insertChecked, lookupA_setA]
        simp

/-! ## The termination measure -/

theorem length_filter_le_of_imp {α : Type} (l : List α) {q r : α → Bool}
    (h : ∀ x, q x = true → r x = true) :
    (l.filter q).length ≤ (l.filter r).length := by
  induction l with
  | nil => simp
  | cons a rest ih =>
    by_cases hq : q a = true
    · simp only [List.filter_cons, hq, if_true, h a hq, List.length_cons]
      omega
    · simp only [List.filter_cons, hq, Bool.false_eq_true, if_false]
      by_cases hr : r a = true
      · simp only [hr, if_true, List.length_cons]
        omega
      · simp only [hr, Bool.false_eq_true, if_false]
        exact ih

theorem length_filter_lt {α : Type} {l : List α} {q r : α → Bool} {a : α}
    (ha : a ∈ l) (hr : r a = true) (hq : q a = false)
    (h : ∀ x, q x = true → r x = true) :
    (l.filter q).length < (l.filter r).length := by
  induction l with
  | nil => simp at ha
  | cons x rest ih =>
    rcases List.mem_cons.mp ha with h1 | h1
    · subst h1
      simp only [List.filter_cons, hq, Bool.false_eq_true, if_false, hr, if_true,
        List.length_cons]
      have := length_filter_le_of_imp rest h
      omega
    · by_cases hqx : q x = true
      · simp only [List.filter_cons, hqx, if_true, h x hqx, List.length_cons]
        have := ih h1
        omega
      · simp only [List.filter_cons, hqx, Bool.false_eq_true, if_false]
        by_cases hrx : r x = true
        · simp only [hrx, if_true, List.length_cons]
          have := ih h1
          omega
        · simp only [hrx, Bool.false_eq_true, if_false]
          exact ih h1

theorem missing_le_extend {p : Project} {s s' : ScanState}
    {t : List (String × IComponent)} (h : s'.components = s.components ++ t) :
    missing p s' ≤ missing p s := by
  unfold missing
  rw [h]
  apply length_filter_le_of_imp
  intro f hf
  simp only [List.any_append, Bool.not_eq_true', Bool.or_eq_false_iff] at hf ⊢
  exact hf.1

theorem missing_checkComponentF_le (fuel : Nat) (p : Project) (s : ScanState)
    (e : String) : missing p (checkComponentF fuel p s e) ≤ missing p s := by
  obtain ⟨t, ht⟩ := components_extend_checkComponentF fuel p s e
  exact missing_le_extend ht

theorem missing_checkDepsF_le (fuel : Nat) (p : Project) (s : ScanState)
    (l : List (String × String)) :
    missing p (checkDepsF fuel p s l) ≤ missing p s := by
  obtain ⟨t, ht⟩ := components_extend_checkDepsF
    (components_extend_checkComponentF fuel p) l s
  exact missing_le_extend ht

theorem missing_setA_lt {p : Project} {s s' : ScanState} {entry : String}
    {comp : IComponent} (hc : s'.components = setA s.components entry comp)
    (hnone : lookupA s.components entry = none)
    (hjson : fileExists p (entry ++ ".json") = true) :
    missing p s' < missing p s := by
  unfold missing
  rw [hc, setA_of_lookupA_none hnone]
  apply length_filter_lt (a := entry ++ ".json")
  · simpa [fileExists] using hjson
  · rw [Bool.not_eq_true', List.any_eq_false]
    intro kv hkv he
    rw [beq_iff_eq] at he
    have hk : kv.1 = entry := string_append_right_cancel he
    have : (entry, kv.2) ∈ s.components := by
      have : kv = (entry, kv.2) := by cases kv; simp_all
      rw [← this]; exact hkv
    have := lookupA_isSome_of_mem this
    rw [hnone] at this
    simp at this
  · rw [Bool.not_eq_false', List.any_eq_true]
    refine ⟨(entry, comp), List.mem_append_right _ (by simp), by simp⟩
  · intro f hf
    rw [Bool.not_eq_true', List.any_eq_false] at hf ⊢
    intro kv hkv
    exact hf kv (List.mem_append_left _ hkv)

theorem missing_lt_fuelOf (p : Project) (s : ScanState) :
    missing p s < fuelOf p := by
  unfold missing fuelOf
  have := List.length_filter_le
    (fun f => !(s.components.any (fun kv => kv.1 ++ ".json" == f))) p.files
  omega

/-! ## Fuel stability: enough fuel makes the fuel irrelevant -/

theorem fileExists_json_of_firstMissing_none {p : Project} {e : String}
    (h : firstMissing p e = none) : fileExists p (e ++ ".json") = true := by
  unfold firstMissing at h
  by_cases h1 : fileExists p (e ++ ".json") = true
  · exact h1
  · rw [Bool.not_eq_true] at h1
    simp [h1] at h

theorem checkDepsF_stab {p : Project} {a b M : Nat}
    (hM : ∀ s e, missing p s ≤ M → missing p s < a → missing p s < b →
      checkComponentF a p s e = checkComponentF b p s e) :
    ∀ (l : List (String × String)) (s : ScanState), missing p s ≤ M →
      missing p s < a → missing p s < b →
      checkDepsF a p s l = checkDepsF b p s l := by
  intro l
  induction l with
  | nil => intro s _ _ _; rfl
  | cons kv rest ih =>
    intro s hsM hsa hsb
    rw [checkDepsF_cons, checkDepsF_cons]
    by_cases h : hasComp s kv.2 = true
    · simp only [h, if_true]
      exact ih s hsM hsa hsb
    · simp only [h, if_false, Bool.false_eq_true]
      rw [hM s kv.2 hsM hsa hsb]
      have hle := missing_checkComponentF_le b p s kv.2
      exact ih _ (le_trans hle hsM) (lt_of_le_of_lt hle hsa) (lt_of_le_of_lt hle hsb)

theorem checkComponentF_stab (p : Project) :
    ∀ (M : Nat) (s : ScanState) (e : String) (f1 f2 : Nat), missing p s ≤ M →
      missing p s < f1 → missing p s < f2 →
      checkComponentF f1 p s e = checkComponentF f2 p s e := by
  intro M
  induction M using Nat.strong_induction_on with
  | _ M ih =>
    intro s e f1 f2 hM h1 h2
    cases f1 with
    | zero => omega
    | succ a =>
      cases f2 with
      | zero => omega
      | succ b =>
        rw [checkComponentF_succ, checkComponentF_succ]
        by_cases h : hasComp s e = true
        · simp [h]
        · simp only [h, if_false, Bool.false_eq_true]
          cases hm : firstMissing p e with
          | some name => rfl
          | none =>
            have hnone := lookupA_none_of_hasComp_false (by simpa using h)
            have hjson := fileExists_json_of_firstMissing_none hm
            have hlt : missing p (insertChecked p s e).1 < missing p s :=
              missing_setA_lt (components_insertChecked p s e) hnone hjson
            have hMlt : missing p (insertChecked p s e).1 < M := by omega
            apply checkDepsF_stab
              (fun s' e' => ih (missing p (insertChecked p s e).1) hMlt s' e' a b)
            · exact le_refl _
            · omega
            · omega

/-- Resolution with the run's default fuel equals resolution with any
sufficient fuel. -/
theorem checkComponentF_fuelOf (p : Project) (s : ScanState) (e : String)
    {fuel : Nat} (hf : missing p s < fuel) :
    checkComponentF fuel p s e = checkComponentF (fuelOf p) p s e :=
  checkComponentF_stab p (missing p s) s e fuel (fuelOf p) (le_refl _) hf
    (missing_lt_fuelOf p s)

/-! ## The resolver never touches the page set -/

theorem pages_checkDepsF {fuel : Nat} {p : Project}
    (hc : ∀ s e, (checkComponentF fuel p s e).pages = s.pages) :
    ∀ (l : List (String × String)) (s : ScanState),
      (checkDepsF fuel p s l).pages = s.pages := by
  intro l
  induction l with
  | nil => intro s; rfl
  | cons kv rest ih =>
    intro s
    rw [checkDepsF_cons]
    by_cases h : hasComp s kv.2 = true
    · simp only [h, if_true]
      exact ih s
    · simp only [h, if_false, Bool.false_eq_true]
      rw [ih, hc]

theorem pages_checkComponentF (fuel : Nat) (p : Project) :
    ∀ (s : ScanState) (e : String), (checkComponentF fuel p s e).pages = s.pages := by
  induction fuel with
  | zero => intro s e; rfl
  | succ fuel ih =>
    intro s entry
    rw [checkComponentF_succ]
    by_cases h : hasComp s entry = true
    · simp [h]
    · simp only [h, if_false, Bool.false_eq_true]
      cases hm : firstMissing p entry with
      | some name => rfl
      | none => rw [pages_checkDepsF ih]; rfl

/-! ## `checkUnused` touches only the error ledger -/

theorem components_unusedStep_foldl (title : String) :
    ∀ (l : List String) (s : ScanState),
      (l.foldl (unusedStep title) s).components = s.components := by
  intro l
  induction l with
  | nil => intro s; rfl
  | cons x rest ih => intro s; rw [List.foldl_cons, ih]; rfl

theorem pages_unusedStep_foldl (title : String) :
    ∀ (l : List String) (s : ScanState),
      (l.foldl (unusedStep title) s).pages = s.pages := by
  intro l
  induction l with
  | nil => intro s; rfl
  | cons x rest ih => intro s; rw [List.foldl_cons, ih]; rfl

theorem fatal_unusedStep_foldl (title : String) :
    ∀ (l : List String) (s : ScanState),
      (l.foldl (unusedStep title) s).errors.fatal = s.errors.fatal := by
  intro l
  induction l with
  | nil => intro s; rfl
  | cons x rest ih => intro s; rw [List.foldl_cons, ih]; rfl

theorem components_checkUnused (p : Project) (s : ScanState) :
    (checkUnused p s).components = s.components := by
  unfold checkUnused
  by_cases h : 0 < (unusedList p s).length
  · simp only [h, if_true]
    exact components_unusedStep_foldl _ _ s
  · simp [h]

theorem pages_checkUnused (p : Project) (s : ScanState) :
    (checkUnused p s).pages = s.pages := by
  unfold checkUnused
  by_cases h : 0 < (unusedList p s).length
  · simp only [h, if_true]
    exact pages_unusedStep_foldl _ _ s
  · simp [h]

theorem fatal_checkUnused (p : Project) (s : ScanState) :
    (checkUnused p s).errors.fatal = s.errors.fatal := by
  unfold checkUnused
  by_cases h : 0 < (unusedList p s).length
  · simp only [h, if_true]
    exact fatal_unusedStep_foldl _ _ s
  · simp [h]

set_option maxHeartbeats 1000000 in
theorem mem_orphanStep {s : ScanState} {acc : List String} {f x : String}
    (h : x ∈ orphanStep s acc f) : x ∈ acc ∨ hasComp s x = false := by
  unfold orphanStep at h
  split at h
  · exact Or.inl h
  · split at h
    · dsimp only [] at h
      split at h
      · exact Or.inl h
      · rcases List.mem_append.mp h with hy | hy
        · exact Or.inl hy
        · simp only [List.mem_singleton] at hy
          subst hy
          rename_i hcond
          simp only [Bool.or_eq_true, not_or] at hcond
          right
          simpa using hcond.1
    · exact Or.inl h

/-- Every entry reported as extraneous was absent from the component map. -/
theorem hasComp_false_of_mem_unusedList {p : Project} {s : ScanState} {x : String}
    (h : x ∈ unusedList p s) : hasComp s x = false := by
  unfold unusedList at h
  suffices hgen : ∀ (files acc : List String),
      (∀ y ∈ acc, hasComp s y = false) →
      x ∈ files.foldl (orphanStep s) acc →
      hasComp s x = false by
    exact hgen p.files [] (by simp) h
  intro files
  induction files with
  | nil =>
    intro acc hacc hx
    exact hacc x hx
  | cons f rest ih =>
    intro acc hacc hx
    rw [List.foldl_cons] at hx
    refine ih (orphanStep s acc f) ?_ hx
    intro y hy
    rcases mem_orphanStep hy with hy1 | hy1
    · exact hacc y hy1
    · exact hy1

/-! ## `checkApp` lemmas -/

theorem hasComp_appStep_self (p : Project) (s : ScanState) (page : String) :
    hasComp (appStep p s page) page = true :=
  hasComp_self p _ page (by unfold fuelOf; omega)

theorem hasComp_appStep_mono (p : Project) {s : ScanState} {k : String}
    (page : String) (h : hasComp s k = true) :
    hasComp (appStep p s page) k = true :=
  hasComp_mono (s := { s with pages := if s.pages.contains page then s.pages
                                       else s.pages ++ [page] }) h

theorem pages_appStep_self (p : Project) (s : ScanState) (page : String) :
    page ∈ (appStep p s page).pages := by
  unfold appStep
  rw [pages_checkComponentF]
  by_cases h : s.pages.contains page = true
  · rw [if_pos h]
    exact List.mem_of_elem_eq_true h
  · rw [if_neg h]
    exact List.mem_append_right _ (by simp)

theorem pages_appStep_mono (p : Project) {s : ScanState} {k : String}
    (page : String) (h : k ∈ s.pages) : k ∈ (appStep p s page).pages := by
  unfold appStep
  rw [pages_checkComponentF]
  by_cases hc : s.pages.contains page = true
  · rw [if_pos hc]
    exact h
  · rw [if_neg hc]
    exact List.mem_append_left _ h

theorem checkApp_foldl_hasComp_mono (p : Project) :
    ∀ (l : List String) (s : ScanState) (k : String), hasComp s k = true →
      hasComp (l.foldl (appStep p) s) k = true := by
  intro l
  induction l with
  | nil => intro s k h; exact h
  | cons x rest ih =>
    intro s k h
    rw [List.foldl_cons]
    exact ih _ k (hasComp_appStep_mono p x h)

theorem checkApp_foldl_pages_mono (p : Project) :
    ∀ (l : List String) (s : ScanState) (k : String), k ∈ s.pages →
      k ∈ (l.foldl (appStep p) s).pages := by
  intro l
  induction l with
  | nil => intro s k h; exact h
  | cons x rest ih =>
    intro s k h
    rw [List.foldl_cons]
    exact ih _ k (pages_appStep_mono p x h)

/-- After `checkApp`, every declared page is in the component map and in
the page set. -/
theorem checkApp_mem (p : Project) (s : ScanState) (page : String)
    (h : page ∈ p.pages) :
    hasComp (checkApp p s) page = true ∧ page ∈ (checkApp p s).pages := by
  unfold checkApp
  revert s
  generalize p.pages = l at h
  induction l with
  | nil => simp at h
  | cons x rest ih =>
    intro s
    rw [List.foldl_cons]
    rcases List.mem_cons.mp h with h1 | h1
    · subst h1
      constructor
      · exact checkApp_foldl_hasComp_mono p rest _ page (hasComp_appStep_self p s page)
      · exact checkApp_foldl_pages_mono p rest _ page (pages_appStep_self p s page)
    · exact ih h1 _

/-- When every declared page is already in the component map and page
set, `checkApp` is the identity. -/
theorem checkApp_noop (p : Project) (s : ScanState)
    (h1 : ∀ page ∈ p.pages, hasComp s page = true)
    (h2 : ∀ page ∈ p.pages, page ∈ s.pages) :
    checkApp p s = s := by
  unfold checkApp
  revert h1 h2
  generalize p.pages = l
  induction l with
  | nil => intro _ _; rfl
  | cons x rest ih =>
    intro h1 h2
    rw [List.foldl_cons]
    have hx1 := h1 x (List.mem_cons_self x rest)
    have hx2 := h2 x (List.mem_cons_self x rest)
    have hstep : appStep p s x = s := by
      unfold appStep
      rw [if_pos (List.elem_eq_true_of_mem hx2)]
      exact checkComponentF_noop hx1 _ p
    rw [hstep]
    exact ih (fun page hp => h1 page (List.mem_cons_of_mem _ hp))
      (fun page hp => h2 page (List.mem_cons_of_mem _ hp))

/-! ## The definition-target invariant (recursion over `defs.components`) -/

theorem hasComp_of_components_append {s s' : ScanState} {k : String}
    {t : List (String × IComponent)} (hc : s'.components = s.components ++ t)
    (h : hasComp s k = true) : hasComp s' k = true := by
  unfold hasComp at h ⊢
  rw [hc, lookupA_isSome_append t h]
  exact h

theorem invP_of_components_eq {s s' : ScanState} {P : List String}
    (hc : s'.components = s.components) (h : InvP s P) : InvP s' P := by
  intro kv hkv d hd ab hab
  rw [hc] at hkv
  rcases h kv hkv d hd ab hab with h1 | h1
  · left
    unfold hasComp at h1 ⊢
    rw [hc]
    exact h1
  · exact Or.inr h1

theorem invP_remove_mid {s : ScanState} {P Q : List String} {a : String}
    (h : InvP s (P ++ a :: Q)) (ha : hasComp s a = true) : InvP s (P ++ Q) := by
  intro kv hkv d hd ab hab
  rcases h kv hkv d hd ab hab with h1 | h1
  · exact Or.inl h1
  · rcases List.mem_append.mp h1 with h2 | h2
    · exact Or.inr (List.mem_append_left _ h2)
    · rcases List.mem_cons.mp h2 with h3 | h3
      · exact Or.inl (h3 ▸ ha)
      · exact Or.inr (List.mem_append_right _ h3)

theorem invP_checkDepsF {fuel : Nat} {p : Project}
    (hcomp : ∀ s e P, missing p s < fuel → InvP s P →
      InvP (checkComponentF fuel p s e) P) :
    ∀ (l : List (String × String)) (s : ScanState) (P : List String),
      missing p s < fuel → InvP s (P ++ l.map Prod.snd) →
      InvP (checkDepsF fuel p s l) P ∧
        ∀ ab ∈ l, hasComp (checkDepsF fuel p s l) ab.2 = true := by
  intro l
  induction l with
  | nil =>
    intro s P hf hinv
    rw [checkDepsF_nil]
    refine ⟨by simpa using hinv, by simp⟩
  | cons kv rest ih =>
    intro s P hf hinv
    rw [checkDepsF_cons]
    by_cases h : hasComp s kv.2 = true
    · simp only [h, if_true]
      have hinv' : InvP s (P ++ rest.map Prod.snd) := by
        have := invP_remove_mid (P := P) (Q := rest.map Prod.snd) (a := kv.2)
          (by simpa using hinv) h
        exact this
      obtain ⟨hI, hall⟩ := ih s P hf hinv'
      refine ⟨hI, ?_⟩
      intro ab hab
      rcases List.mem_cons.mp hab with h1 | h1
      · subst h1
        exact hasComp_mono_deps h
      · exact hall ab h1
    · simp only [h, if_false, Bool.false_eq_true]
      have hf1 : 1 ≤ fuel := by omega
      have hinv1 : InvP (checkComponentF fuel p s kv.2) (P ++ kv.2 :: rest.map Prod.snd) :=
        hcomp s kv.2 _ hf (by simpa using hinv)
      have hself : hasComp (checkComponentF fuel p s kv.2) kv.2 = true :=
        hasComp_self p s kv.2 hf1
      have hinv2 : InvP (checkComponentF fuel p s kv.2) (P ++ rest.map Prod.snd) :=
        invP_remove_mid hinv1 hself
      have hfle : missing p (checkComponentF fuel p s kv.2) < fuel :=
        lt_of_le_of_lt (missing_checkComponentF_le fuel p s kv.2) hf
      obtain ⟨hI, hall⟩ := ih (checkComponentF fuel p s kv.2) P hfle hinv2
      refine ⟨hI, ?_⟩
      intro ab hab
      rcases List.mem_cons.mp hab with h1 | h1
      · subst h1
        exact hasComp_mono_deps hself
      · exact hall ab h1

theorem invP_checkComponentF (p : Project) :
    ∀ (fuel : Nat) (s : ScanState) (e : String) (P : List String),
      missing p s < fuel → InvP s P → InvP (checkComponentF fuel p s e) P := by
  intro fuel
  induction fuel with
  | zero => intro s e P hf; omega
  | succ fuel ih =>
    intro s e P hf hinv
    rw [checkComponentF_succ]
    by_cases h : hasComp s e = true
    · simpa [h] using hinv
    · have hnone := lookupA_none_of_hasComp_false (by simpa using h)
      cases hm : firstMissing p e with
      | some name =>
        simp only [h, if_false, Bool.false_eq_true]
        intro kv hkv d hd ab hab
        have hcomps : (insertMissing s e name).components =
            s.components ++ [(e, { entry := e, deps := [] })] := by
          unfold insertMissing
          simp only
          exact setA_of_lookupA_none hnone _
        rw [hcomps] at hkv
        rcases List.mem_append.mp hkv with h1 | h1
        · rcases hinv kv h1 d hd ab hab with h2 | h2
          · exact Or.inl (hasComp_of_components_append hcomps h2)
          · exact Or.inr h2
        · simp only [List.mem_singleton] at h1
          subst h1
          simp at hd
      | none =>
        simp only [h, if_false, Bool.false_eq_true]
        have hjson := fileExists_json_of_firstMissing_none hm
        have hlt : missing p (insertChecked p s e).1 < missing p s :=
          missing_setA_lt (components_insertChecked p s e) hnone hjson
        have hcomps : (insertChecked p s e).1.components =
            s.components ++ [(e,
              { entry := e,
                deps := (extractComponents p e (extractDefinitions p e s.errors).1
                  (extractDefinitions p e s.errors).2).1,
                defs := some (extractDefinitions p e s.errors).1 })] := by
          rw [components_insertChecked]
          exact setA_of_lookupA_none hnone _
        have hinv' : InvP (insertChecked p s e).1
            (P ++ (insertChecked p s e).2.map Prod.snd) := by
          intro kv hkv d hd ab hab
          rw [hcomps] at hkv
          rcases List.mem_append.mp hkv with h1 | h1
          · rcases hinv kv h1 d hd ab hab with h2 | h2
            · exact Or.inl (hasComp_of_components_append hcomps h2)
            · exact Or.inr (List.mem_append_left _ h2)
          · simp only [List.mem_singleton] at h1
            subst h1
            simp only [Option.some.injEq] at hd
            subst hd
            right
            apply List.mem_append_right
            exact List.mem_map_of_mem Prod.snd hab
        exact (invP_checkDepsF (fun s' e' P' hf' hinv'' => ih s' e' P' hf' hinv'')
          (insertChecked p s e).2 (insertChecked p s e).1 P (by omega) hinv').1

theorem invP_appStep (p : Project) {s : ScanState} {P : List String}
    (page : String) (h : InvP s P) : InvP (appStep p s page) P := by
  unfold appStep
  apply invP_checkComponentF p (fuelOf p) _ page P (missing_lt_fuelOf p _)
  exact invP_of_components_eq rfl h

theorem invP_check (p : Project) (s0 : ScanState) (h : InvP s0 []) :
    InvP (check p s0) [] := by
  unfold check
  apply invP_of_components_eq (components_checkUnused p _)
  unfold checkApp
  have hbase : InvP (resetErrors s0) [] := invP_of_components_eq rfl h
  revert hbase
  generalize resetErrors s0 = s1
  generalize p.pages = l
  induction l generalizing s1 with
  | nil => intro hb; exact hb
  | cons x rest ih =>
    intro hb
    rw [List.foldl_cons]
    exact ih _ (invP_appStep p x hb)

theorem invP_initState : InvP initState [] := by
  intro kv hkv
  simp [initState] at hkv

/-! ## `extractDefinitions` lemmas -/

theorem reprStrTotal_message (c : String) (o : Nat) (m : String) :
    (reprStrTotal c o m).message = some m := by
  unfold reprStrTotal
  cases h : reprStr c o m with
  | none => rfl
  | some r =>
    rw [Option.getD_some]
    unfold reprStr at h
    dsimp only [] at h
    split at h
    · cases h
      rfl
    · cases h

theorem defStep_foldl_lookup_frame (p : Project) (entry : String) {key : String} :
    ∀ (l : List (String × String)) (acc : List (String × String) × Errors),
      (∀ kv ∈ l, kv.1 ≠ key) →
      lookupA (l.foldl (defStep p entry) acc).1 key = lookupA acc.1 key := by
  intro l
  induction l with
  | nil => intro acc _; rfl
  | cons kv rest ih =>
    intro acc hk
    rw [List.foldl_cons]
    rw [ih _ (fun kv2 h2 => hk kv2 (List.mem_cons_of_mem _ h2))]
    unfold defStep
    dsimp only []
    split
    · rw [lookupA_setA]
      rw [if_neg (hk kv (List.mem_cons_self _ _))]
    · rfl

theorem defStep_foldl_fatal_frame (p : Project) (entry : String) {key : String} :
    ∀ (l : List (String × String)) (acc : List (String × String) × Errors),
      (∀ kv ∈ l, kv.1 ≠ key) →
      msgRecs (l.foldl (defStep p entry) acc).2.fatal entry
          ("Component not found: " ++ key) =
        msgRecs acc.2.fatal entry ("Component not found: " ++ key) := by
  intro l
  induction l with
  | nil => intro acc _; rfl
  | cons kv rest ih =>
    intro acc hk
    rw [List.foldl_cons]
    rw [ih _ (fun kv2 h2 => hk kv2 (List.mem_cons_of_mem _ h2))]
    unfold defStep
    dsimp only []
    split
    · rfl
    · rw [msgRecs_addError_fatal, if_pos rfl]
      have hne : ("Component not found: " ++ kv.1) ≠ ("Component not found: " ++ key) :=
        fun hcontr => hk kv (List.mem_cons_self _ _) (string_append_left_cancel hcontr)
      simp [hne]

theorem defStep_hit (p : Project) (entry key value : String)
    (acc : List (String × String) × Errors)
    (h : fileExists p (resolveAlias entry value ++ ".json") = true) :
    defStep p entry acc (key, value) = (setA acc.1 key (resolveAlias entry value), acc.2) := by
  unfold defStep
  dsimp only []
  rw [if_pos h]

theorem defStep_miss (p : Project) (entry key value : String)
    (acc : List (String × String) × Errors)
    (h : fileExists p (resolveAlias entry value ++ ".json") = false) :
    defStep p entry acc (key, value) =
      (acc.1, addError acc.2 entry
        [{ message := some ("Component not found: " ++ key) }] Sev.fatal) := by
  unfold defStep
  dsimp only []
  rw [if_neg (by simp [h])]

/-! ## `extractComponents` lemmas: the traversal -/

theorem traverseStep_element (entry content : String)
    (acc : List (String × XNode) × Errors) (name : String) (attrs : List XAttr)
    (po : Option Pos) :
    traverseStep entry content acc (XNode.element name attrs po) =
      if name = "" then acc
      else (if (lookupA acc.1 name).isSome then acc.1
            else acc.1 ++ [(name, XNode.element name attrs po)],
            attrs.foldl (attrStep entry content) acc.2) := rfl

theorem traverseStep_text (entry content : String)
    (acc : List (String × XNode) × Errors) (v : String) (po : Option Pos) :
    traverseStep entry content acc (XNode.text v po) =
      if v ≠ "" ∧ mismatch v then
        (acc.1, addError acc.2 entry
          [reprStrTotal content (offAfterOpen po) "Unmatched brackets"] Sev.warning)
      else acc := rfl

theorem traverseStep_other (entry content : String)
    (acc : List (String × XNode) × Errors) :
    traverseStep entry content acc XNode.other = acc := rfl

theorem depStep_element (acc : List (String × XNode)) (name : String)
    (attrs : List XAttr) (po : Option Pos) :
    depStep acc (XNode.element name attrs po) =
      if name = "" then acc
      else if (lookupA acc name).isSome then acc
      else acc ++ [(name, XNode.element name attrs po)] := rfl

theorem depStep_text (acc : List (String × XNode)) (v : String) (po : Option Pos) :
    depStep acc (XNode.text v po) = acc := rfl

theorem depStep_other (acc : List (String × XNode)) :
    depStep acc XNode.other = acc := rfl

/-- The first components of the combined traversal fold are exactly the
pure dependency collection. -/
theorem traverseStep_foldl_fst (entry content : String) :
    ∀ (nodes : List XNode) (d : List (String × XNode)) (e : Errors),
      (nodes.foldl (traverseStep entry content) (d, e)).1 = nodes.foldl depStep d := by
  intro nodes
  induction nodes with
  | nil => intro d e; rfl
  | cons node rest ih =>
    intro d e
    rw [List.foldl_cons, List.foldl_cons]
    cases node with
    | element name attrs po =>
      rw [traverseStep_element, depStep_element]
      dsimp only []
      by_cases h : name = ""
      · rw [if_pos h, if_pos h]
        exact ih d e
      · rw [if_neg h, if_neg h]
        by_cases h2 : (lookupA d name).isSome = true
        · rw [if_pos h2]
          exact ih d _
        · rw [if_neg h2]
          exact ih _ _
    | text v po =>
      rw [traverseStep_text, depStep_text]
      dsimp only []
      by_cases h : v ≠ "" ∧ mismatch v = true
      · rw [if_pos h]
        exact ih d _
      · rw [if_neg h]
        exact ih d e
    | other =>
      rw [traverseStep_other, depStep_other]
      exact ih d e

theorem attrStep_foldl_fatal (entry content : String) :
    ∀ (al : List XAttr) (e0 : Errors),
      (al.foldl (attrStep entry content) e0).fatal = e0.fatal := by
  intro al
  induction al with
  | nil => intro e0; rfl
  | cons a arest aih =>
    intro e0
    rw [List.foldl_cons, aih]
    unfold attrStep
    cases hv : a.value with
    | none => rfl
    | some v =>
      dsimp only []
      by_cases hmv : mismatch v = true
      · rw [if_pos hmv]
        rfl
      · rw [if_neg hmv]

theorem traverseStep_foldl_fatal (entry content : String) :
    ∀ (nodes : List XNode) (d : List (String × XNode)) (e : Errors),
      (nodes.foldl (traverseStep entry content) (d, e)).2.fatal = e.fatal := by
  intro nodes
  induction nodes with
  | nil => intro d e; rfl
  | cons node rest ih =>
    intro d e
    rw [List.foldl_cons]
    cases node with
    | element name attrs po =>
      rw [traverseStep_element]
      dsimp only []
      by_cases h : name = ""
      · rw [if_pos h]
        exact ih d e
      · rw [if_neg h]
        rw [ih]
        exact attrStep_foldl_fatal entry content attrs e
    | text v po =>
      rw [traverseStep_text]
      dsimp only []
      by_cases h : v ≠ "" ∧ mismatch v = true
      · rw [if_pos h]
        exact ih d _
      · rw [if_neg h]
        exact ih d e
    | other =>
      rw [traverseStep_other]
      exact ih d e

/-- The dependency collection has pairwise distinct element names. -/
theorem depsOf_keys_nodup_aux :
    ∀ (nodes : List XNode) (acc : List (String × XNode)),
      (acc.map Prod.fst).Nodup → ((nodes.foldl depStep acc).map Prod.fst).Nodup := by
  intro nodes
  induction nodes with
  | nil => intro acc h; exact h
  | cons node rest ih =>
    intro acc h
    rw [List.foldl_cons]
    apply ih
    cases node with
    | element name attrs po =>
      rw [depStep_element]
      by_cases h1 : name = ""
      · rw [if_pos h1]; exact h
      · rw [if_neg h1]
        by_cases h2 : (lookupA acc name).isSome = true
        · rw [if_pos h2]; exact h
        · rw [if_neg h2]
          have hnone : lookupA acc name = none := by
            cases hv : lookupA acc name with
            | none => rfl
            | some v => rw [hv] at h2; simp at h2
          have hnm := not_mem_keys_of_lookupA_eq_none hnone
          rw [List.map_append]
          simp only [List.map_cons, List.map_nil]
          rw [List.nodup_append]
          refine ⟨h, List.nodup_singleton _, ?_⟩
          intro x hx hx1
          simp only [List.mem_singleton] at hx1
          subst hx1
          exact hnm hx
    | text v po => rw [depStep_text]; exact h
    | other => rw [depStep_other]; exact h

theorem depsOf_keys_nodup (nodes : List XNode) :
    ((depsOf nodes).map Prod.fst).Nodup :=
  depsOf_keys_nodup_aux nodes [] (by simp)

/-- Every collected dependency pair is keyed by its own element name. -/
theorem depsOf_name_eq_aux :
    ∀ (nodes : List XNode) (acc : List (String × XNode)),
      (∀ nd ∈ acc, ∃ attrs po, nd.2 = XNode.element nd.1 attrs po) →
      ∀ nd ∈ nodes.foldl depStep acc, ∃ attrs po, nd.2 = XNode.element nd.1 attrs po := by
  intro nodes
  induction nodes with
  | nil => intro acc h; exact h
  | cons node rest ih =>
    intro acc h
    rw [List.foldl_cons]
    apply ih
    cases node with
    | element name attrs po =>
      rw [depStep_element]
      by_cases h1 : name = ""
      · rw [if_pos h1]; exact h
      · rw [if_neg h1]
        by_cases h2 : (lookupA acc name).isSome = true
        · rw [if_pos h2]; exact h
        · rw [if_neg h2]
          intro nd hnd
          rcases List.mem_append.mp hnd with h3 | h3
          · exact h nd h3
          · simp only [List.mem_singleton] at h3
            subst h3
            exact ⟨attrs, po, rfl⟩
    | text v po => rw [depStep_text]; exact h
    | other => rw [depStep_other]; exact h

theorem depsOf_name_eq {nodes : List XNode} {nd : String × XNode}
    (h : nd ∈ depsOf nodes) : ∃ attrs po, nd.2 = XNode.element nd.1 attrs po :=
  depsOf_name_eq_aux nodes [] (by simp) nd h

/-! ## `extractComponents` lemmas: the resolution loop -/

theorem resolveStep_eq (entry content : String) (defs : List (String × String))
    (acc : List IDependency × List (String × String) × Errors) (nd : String × XNode) :
    resolveStep entry content defs acc nd =
      if builtIns.contains nd.1 then
        (acc.1 ++ [{ node := nd.2, modulePath := some ("@@/" ++ nd.1) }], acc.2.1, acc.2.2)
      else
        match lookupA defs nd.1 with
        | some mp => (acc.1 ++ [{ node := nd.2, modulePath := some mp }],
            deleteA acc.2.1 nd.1, acc.2.2)
        | none => (acc.1 ++ [{ node := nd.2, modulePath := none }], acc.2.1,
            addError acc.2.2 entry
              [reprStrTotal content (offAtOpen nd.2.posOpen)
                ("Undefined component: " ++ nd.1)]
              Sev.fatal) := rfl

theorem resolveOne_eq (defs : List (String × String)) (nd : String × XNode) :
    resolveOne defs nd =
      if builtIns.contains nd.1 then { node := nd.2, modulePath := some ("@@/" ++ nd.1) }
      else
        match lookupA defs nd.1 with
        | some mp => { node := nd.2, modulePath := some mp }
        | none => { node := nd.2, modulePath := none } := rfl

theorem resolveStep_foldl_fst (entry content : String)
    (defs : List (String × String)) :
    ∀ (l : List (String × XNode))
      (acc : List IDependency × List (String × String) × Errors),
      (l.foldl (resolveStep entry content defs) acc).1 =
        acc.1 ++ l.map (resolveOne defs) := by
  intro l
  induction l with
  | nil => intro acc; simp
  | cons nd rest ih =>
    intro acc
    rw [List.foldl_cons, List.map_cons, resolveStep_eq, resolveOne_eq]
    by_cases h1 : builtIns.contains nd.1 = true
    · rw [if_pos h1, if_pos h1, ih]
      simp
    · rw [if_neg h1, if_neg h1]
      cases hl : lookupA defs nd.1 with
      | some mp =>
        rw [ih]
        simp
      | none =>
        rw [ih]
        simp

theorem resolveStep_foldl_warning (entry content : String)
    (defs : List (String × String)) :
    ∀ (l : List (String × XNode))
      (acc : List IDependency × List (String × String) × Errors),
      (l.foldl (resolveStep entry content defs) acc).2.2.warning =
        acc.2.2.warning := by
  intro l
  induction l with
  | nil => intro acc; rfl
  | cons nd rest ih =>
    intro acc
    rw [List.foldl_cons, resolveStep_eq]
    by_cases h1 : builtIns.contains nd.1 = true
    · rw [if_pos h1, ih]
    · rw [if_neg h1]
      cases hl : lookupA defs nd.1 with
      | some mp => rw [ih]
      | none => rw [ih]; rfl

theorem resolveStep_foldl_fatal_frame (entry content : String)
    (defs : List (String × String)) {name : String} :
    ∀ (l : List (String × XNode))
      (acc : List IDependency × List (String × String) × Errors),
      (∀ nd ∈ l, nd.1 ≠ name) →
      msgRecs (l.foldl (resolveStep entry content defs) acc).2.2.fatal entry
          ("Undefined component: " ++ name) =
        msgRecs acc.2.2.fatal entry ("Undefined component: " ++ name) := by
  intro l
  induction l with
  | nil => intro acc _; rfl
  | cons nd rest ih =>
    intro acc hk
    rw [List.foldl_cons, resolveStep_eq]
    by_cases h1 : builtIns.contains nd.1 = true
    · rw [if_pos h1, ih _ (fun nd2 h2 => hk nd2 (List.mem_cons_of_mem _ h2))]
    · rw [if_neg h1]
      cases hl : lookupA defs nd.1 with
      | some mp => rw [ih _ (fun nd2 h2 => hk nd2 (List.mem_cons_of_mem _ h2))]
      | none =>
        rw [ih _ (fun nd2 h2 => hk nd2 (List.mem_cons_of_mem _ h2))]
        dsimp only []
        rw [msgRecs_addError_fatal, if_pos rfl]
        have hne : ("Undefined component: " ++ nd.1) ≠ ("Undefined component: " ++ name) :=
          fun hcontr => hk nd (List.mem_cons_self _ _) (string_append_left_cancel hcontr)
        have hmsg : (reprStrTotal content (offAtOpen nd.2.posOpen)
            ("Undefined component: " ++ nd.1)).message =
            some ("Undefined component: " ++ nd.1) := reprStrTotal_message _ _ _
        simp [hmsg, hne]

theorem resolveStep_foldl_unused_frame (entry content : String)
    (defs : List (String × String)) {name : String} :
    ∀ (l : List (String × XNode))
      (acc : List IDependency × List (String × String) × Errors),
      (∀ nd ∈ l, nd.1 = name → builtIns.contains nd.1 = true) →
      lookupA (l.foldl (resolveStep entry content defs) acc).2.1 name =
        lookupA acc.2.1 name := by
  intro l
  induction l with
  | nil => intro acc _; rfl
  | cons nd rest ih =>
    intro acc hk
    rw [List.foldl_cons, resolveStep_eq]
    by_cases h1 : builtIns.contains nd.1 = true
    · rw [if_pos h1, ih _ (fun nd2 h2 => hk nd2 (List.mem_cons_of_mem _ h2))]
    · rw [if_neg h1]
      cases hl : lookupA defs nd.1 with
      | some mp =>
        rw [ih _ (fun nd2 h2 => hk nd2 (List.mem_cons_of_mem _ h2))]
        dsimp only []
        have hne : nd.1 ≠ name :=
          fun hcontr => h1 (hk nd (List.mem_cons_self _ _) hcontr)
        exact lookupA_deleteA_ne _ hne
      | none => rw [ih _ (fun nd2 h2 => hk nd2 (List.mem_cons_of_mem _ h2))]

/-! ## Warning-count lemmas -/

theorem msgRecs_addError_warning (errs : Errors) (e e' m : String)
    (rs : List IErrorRef) :
    msgRecs (addError errs e rs Sev.warning).warning e' m =
      if e = e' then
        msgRecs errs.warning e' m ++ rs.filter (fun r => r.message == some m)
      else msgRecs errs.warning e' m := by
  by_cases h : e = e'
  · subst h; simp [addError, msgRecs_pushAt_self]
  · simp [addError, msgRecs_pushAt_ne _ _ rs h, h]

theorem msgCount_le_addError (errs : Errors) (e e' m : String)
    (rs : List IErrorRef) (sev : Sev) :
    msgCount errs.warning e' m ≤ msgCount (addError errs e rs sev).warning e' m := by
  cases sev with
  | fatal => exact le_of_eq (by rw [warning_addError_fatal])
  | warning =>
    unfold msgCount
    rw [msgRecs_addError_warning]
    by_cases h : e = e'
    · rw [if_pos h]
      simp
    · rw [if_neg h]

theorem msgCount_le_attrStep_foldl (entry content : String) :
    ∀ (al : List XAttr) (e0 : Errors) (e' m : String),
      msgCount e0.warning e' m ≤
        msgCount (al.foldl (attrStep entry content) e0).warning e' m := by
  intro al
  induction al with
  | nil => intro e0 e' m; exact le_refl _
  | cons a arest aih =>
    intro e0 e' m
    rw [List.foldl_cons]
    refine le_trans ?_ (aih _ e' m)
    unfold attrStep
    cases hv : a.value with
    | none => exact le_refl _
    | some v =>
      dsimp only []
      by_cases hmv : mismatch v = true
      · rw [if_pos hmv]
        exact msgCount_le_addError _ _ _ _ _ _
      · rw [if_neg hmv]

theorem msgCount_le_traverseStep_foldl (entry content : String) :
    ∀ (nodes : List XNode) (d : List (String × XNode)) (e : Errors) (e' m : String),
      msgCount e.warning e' m ≤
        msgCount (nodes.foldl (traverseStep entry content) (d, e)).2.warning e' m := by
  intro nodes
  induction nodes with
  | nil => intro d e e' m; exact le_refl _
  | cons node rest ih =>
    intro d e e' m
    rw [List.foldl_cons]
    cases node with
    | element name attrs po =>
      rw [traverseStep_element]
      dsimp only []
      by_cases h : name = ""
      · rw [if_pos h]
        exact ih d e e' m
      · rw [if_neg h]
        exact le_trans (msgCount_le_attrStep_foldl entry content attrs e e' m) (ih _ _ e' m)
    | text v po =>
      rw [traverseStep_text]
      dsimp only []
      by_cases h : v ≠ "" ∧ mismatch v = true
      · rw [if_pos h]
        exact le_trans (msgCount_le_addError _ _ _ _ _ _) (ih d _ e' m)
      · rw [if_neg h]
        exact ih d e e' m
    | other =>
      rw [traverseStep_other]
      exact ih d e e' m

theorem unusedDefStep_foldl_fatal (entry : String) :
    ∀ (l : List (String × String)) (e : Errors),
      (l.foldl (unusedDefStep entry) e).fatal = e.fatal := by
  intro l
  induction l with
  | nil => intro e; rfl
  | cons kv rest ih =>
    intro e
    rw [List.foldl_cons, ih]
    rfl

theorem unusedDefStep_foldl_count_frame (entry : String) {m : String}
    (hm : ∀ k : String, ("Unused definition: " ++ k) ≠ m) :
    ∀ (l : List (String × String)) (e : Errors) (e' : String),
      msgCount (l.foldl (unusedDefStep entry) e).warning e' m =
        msgCount e.warning e' m := by
  intro l
  induction l with
  | nil => intro e e'; rfl
  | cons kv rest ih =>
    intro e e'
    rw [List.foldl_cons, ih]
    unfold unusedDefStep msgCount
    rw [msgRecs_addError_warning]
    by_cases h : entry = e'
    · rw [if_pos h]
      have : (({ message := some ("Unused definition: " ++ kv.1)} :
          IErrorRef).message == some m) = false := by
        simp [hm kv.1]
      simp [this]
    · rw [if_neg h]

theorem msgCount_le_unusedDefStep_foldl (entry : String) :
    ∀ (l : List (String × String)) (e : Errors) (e' m : String),
      msgCount e.warning e' m ≤
        msgCount (l.foldl (unusedDefStep entry) e).warning e' m := by
  intro l
  induction l with
  | nil => intro e e' m; exact le_refl _
  | cons kv rest ih =>
    intro e e' m
    rw [List.foldl_cons]
    exact le_trans (msgCount_le_addError _ _ _ _ _ _) (ih _ e' m)

/-- An alias still present in the unused map when the final loop runs
contributes its `Unused definition` warning. -/
theorem unusedDefStep_foldl_count_succ (entry : String)
    {l : List (String × String)} {kv0 : String × String} (hmem : kv0 ∈ l) :
    ∀ (e : Errors),
      msgCount e.warning entry ("Unused definition: " ++ kv0.1) + 1 ≤
        msgCount (l.foldl (unusedDefStep entry) e).warning entry
          ("Unused definition: " ++ kv0.1) := by
  induction l with
  | nil => simp at hmem
  | cons kv rest ih =>
    intro e
    rw [List.foldl_cons]
    rcases List.mem_cons.mp hmem with h1 | h1
    · subst h1
      refine le_trans ?_ (msgCount_le_unusedDefStep_foldl entry rest _ entry _)
      unfold unusedDefStep msgCount
      rw [msgRecs_addError_warning, if_pos rfl]
      simp
    · refine le_trans ?_ (ih h1 _)
      have hstep : msgCount e.warning entry ("Unused definition: " ++ kv0.1) ≤
          msgCount (unusedDefStep entry e kv).warning entry
            ("Unused definition: " ++ kv0.1) :=
        msgCount_le_addError e entry entry _ _ _
      omega

/-! ## `extractComponents` assembled shape -/

theorem mismatch_empty : mismatch "" = false := by decide

/-- The returned dependency list: one entry per distinct element name,
resolved by `resolveOne`. -/
theorem extractComponents_fst (p : Project) (entry : String) (defs : Defs)
    (errs : Errors) :
    (extractComponents p entry defs errs).1 =
      (depsOf (p.markup entry).nodes).map (resolveOne defs.components) := by
  unfold extractComponents
  dsimp only []
  rw [resolveStep_foldl_fst, traverseStep_foldl_fst]
  rw [List.nil_append]
  rfl

/-- The fatal bucket after the whole of `extractComponents` is the fatal
bucket left by the resolution loop: the parser-warning step, the
delimiter checks and the unused-definition report all use warning
severity. -/
theorem extractComponents_fatal_base (p : Project) (entry : String) (defs : Defs)
    (errs : Errors) {name : String} (hall : ∀ nd ∈ depsOf (p.markup entry).nodes,
      nd.1 ≠ name) :
    msgRecs (extractComponents p entry defs errs).2.fatal entry
        ("Undefined component: " ++ name) =
      msgRecs errs.fatal entry ("Undefined component: " ++ name) := by
  unfold extractComponents
  dsimp only []
  rw [unusedDefStep_foldl_fatal, traverseStep_foldl_fst]
  have hd : (p.markup entry).nodes.foldl depStep [] = depsOf (p.markup entry).nodes := rfl
  rw [hd]
  rw [resolveStep_foldl_fatal_frame _ _ _ _ _ hall]
  dsimp only []
  rw [traverseStep_foldl_fatal]
  by_cases hw : (p.markup entry).warnings.isEmpty = true
  · rw [if_pos hw]
  · rw [if_neg hw]
    unfold msgRecs
    rw [fatal_addError_warning]

/-- The keyed form: the resolution loop leaves the fatal records of a
distinguished element name unchanged when it is a built-in or aliased,
and appends exactly one positioned `Undefined component` record
otherwise. -/
theorem extractComponents_fatal_key (p : Project) (entry : String) (defs : Defs)
    (errs : Errors) {name : String} {node : XNode}
    (hmem : (name, node) ∈ depsOf (p.markup entry).nodes) :
    msgRecs (extractComponents p entry defs errs).2.fatal entry
        ("Undefined component: " ++ name) =
      msgRecs errs.fatal entry ("Undefined component: " ++ name) ++
        (if builtIns.contains name then []
         else
           match lookupA defs.components name with
           | some _ => []
           | none => [reprStrTotal (p.markup entry).content (offAtOpen node.posOpen)
               ("Undefined component: " ++ name)]) := by
  obtain ⟨L1, L2, hL⟩ := List.append_of_mem hmem
  have hnd := depsOf_keys_nodup (p.markup entry).nodes
  rw [hL, List.map_append, List.map_cons, List.nodup_append] at hnd
  obtain ⟨hn1, hn2, hdisj⟩ := hnd
  have h1 : ∀ nd ∈ L1, nd.1 ≠ name := by
    intro nd hnd1 hcontr
    exact hdisj (List.mem_map_of_mem Prod.fst hnd1) (by simp [hcontr])
  have h2 : ∀ nd ∈ L2, nd.1 ≠ name := by
    intro nd hnd2 hcontr
    have hkey := (List.nodup_cons.mp hn2).1
    have hmm : nd.1 ∈ L2.map Prod.fst := List.mem_map_of_mem Prod.fst hnd2
    rw [hcontr] at hmm
    exact hkey hmm
  unfold extractComponents
  dsimp only []
  rw [unusedDefStep_foldl_fatal, traverseStep_foldl_fst]
  have hd : (p.markup entry).nodes.foldl depStep [] = depsOf (p.markup entry).nodes := rfl
  rw [hd, hL]
  rw [List.foldl_append, List.foldl_cons]
  rw [resolveStep_foldl_fatal_frame _ _ _ _ _ h2]
  rw [resolveStep_eq]
  have hbase : msgRecs (L1.foldl (resolveStep entry (p.markup entry).content
          defs.components) ([], defs.components,
          ((p.markup entry).nodes.foldl (traverseStep entry (p.markup entry).content)
            ([], if (p.markup entry).warnings.isEmpty then errs
                 else addError errs entry ((p.markup entry).warnings.map
                   fun w => reprStrTotal (p.markup entry).content w.1 w.2)
                   Sev.warning)).2)).2.2.fatal entry ("Undefined component: " ++ name) =
      msgRecs errs.fatal entry ("Undefined component: " ++ name) := by
    rw [resolveStep_foldl_fatal_frame _ _ _ _ _ h1]
    dsimp only []
    rw [traverseStep_foldl_fatal]
    by_cases hw : (p.markup entry).warnings.isEmpty = true
    · rw [if_pos hw]
    · rw [if_neg hw]
      unfold msgRecs
      rw [fatal_addError_warning]
  by_cases hb : builtIns.contains name = true
  · rw [if_pos hb, if_pos hb]
    dsimp only []
    rw [hbase, List.append_nil]
  · rw [if_neg hb, if_neg hb]
    cases hl : lookupA defs.components name with
    | some mp =>
      dsimp only []
      rw [hbase, List.append_nil]
    | none =>
      dsimp only []
      rw [msgRecs_addError_fatal, if_pos rfl, hbase]
      congr 1
      simp [List.filter, reprStrTotal_message]

theorem resolveOne_node (defs : List (String × String)) (nd : String × XNode) :
    (resolveOne defs nd).node = nd.2 := by
  rw [resolveOne_eq]
  by_cases hb : builtIns.contains nd.1 = true
  · rw [if_pos hb]
  · rw [if_neg hb]
    cases lookupA defs nd.1 with
    | some mp => rfl
    | none => rfl

/-- When a built-in element name also has an alias, the alias is never
deleted from the unused copy, so the final unused-definition report still
names it: the warning count grows by at least one. -/
theorem extractComponents_unused_warning (p : Project) (entry : String)
    (defs : Defs) (errs : Errors) {name mp : String}
    (hb : builtIns.contains name = true)
    (hl : lookupA defs.components name = some mp) :
    msgCount errs.warning entry ("Unused definition: " ++ name) + 1 ≤
      msgCount (extractComponents p entry defs errs).2.warning entry
        ("Unused definition: " ++ name) := by
  unfold extractComponents
  dsimp only []
  have hframe := @resolveStep_foldl_unused_frame entry (p.markup entry).content
    defs.components name
    ((p.markup entry).nodes.foldl (traverseStep entry (p.markup entry).content)
      ([], if (p.markup entry).warnings.isEmpty then errs
           else addError errs entry ((p.markup entry).warnings.map
             fun w => reprStrTotal (p.markup entry).content w.1 w.2)
             Sev.warning)).1
    ([], defs.components,
      ((p.markup entry).nodes.foldl (traverseStep entry (p.markup entry).content)
        ([], if (p.markup entry).warnings.isEmpty then errs
             else addError errs entry ((p.markup entry).warnings.map
               fun w => reprStrTotal (p.markup entry).content w.1 w.2)
               Sev.warning)).2)
    (fun nd _ hnd => by rw [hnd]; exact hb)
  have hmem : (name, mp) ∈
      (((p.markup entry).nodes.foldl (traverseStep entry (p.markup entry).content)
        ([], if (p.markup entry).warnings.isEmpty then errs
             else addError errs entry ((p.markup entry).warnings.map
               fun w => reprStrTotal (p.markup entry).content w.1 w.2)
               Sev.warning)).1.foldl
        (resolveStep entry (p.markup entry).content defs.components)
        ([], defs.components,
          ((p.markup entry).nodes.foldl (traverseStep entry (p.markup entry).content)
            ([], if (p.markup entry).warnings.isEmpty then errs
                 else addError errs entry ((p.markup entry).warnings.map
                   fun w => reprStrTotal (p.markup entry).content w.1 w.2)
                   Sev.warning)).2)).2.1 := by
    apply mem_of_lookupA_eq_some
    rw [hframe]
    exact hl
  refine le_trans ?_ (unusedDefStep_foldl_count_succ entry hmem _)
  apply Nat.add_le_add_right
  rw [resolveStep_foldl_warning]
  dsimp only []
  refine le_trans ?_ (msgCount_le_traverseStep_foldl entry (p.markup entry).content
    (p.markup entry).nodes [] _ entry _)
  by_cases hw : (p.markup entry).warnings.isEmpty = true
  · rw [if_pos hw]
  · rw [if_neg hw]
    exact msgCount_le_addError _ _ _ _ _ _

/-! ## The claims -/

/-- C1: component resolution terminates on every project — any two fuels
above the measure give the same result, so the recursion reaches a fixed
point — and processes each logical path at most once: a path already in
the component map is a no-op.  On the concrete two-component cycle
(`pages/a` references `b`, whose component references `a` back) both
components are resolved exactly once each and no error at all — in
particular no fatal `Undefined component` — is recorded. -/
theorem c1_termination_once_cycle :
    (∀ (p : Project) (s : ScanState) (e : String) (f1 f2 : Nat),
        missing p s < f1 → missing p s < f2 →
        checkComponentF f1 p s e = checkComponentF f2 p s e) ∧
    (∀ (p : Project) (s : ScanState) (e : String) (fuel : Nat),
        hasComp s e = true → checkComponentF fuel p s e = s) ∧
    (check cycProj initState).components.map Prod.fst = ["pages/a", "pages/b"] ∧
    (check cycProj initState).errors.fatal = [] ∧
    (check cycProj initState).errors.warning = [] := by
  refine ⟨?_, ?_, by decide, by decide, by decide⟩
  · intro p s e f1 f2 h1 h2
    exact checkComponentF_stab p (missing p s) s e f1 f2 (le_refl _) h1 h2
  · intro p s e fuel h
    exact checkComponentF_noop h fuel p

/-- C1 witness: the fuel-stability part applied at the cycle project with
two concrete sufficient fuels. -/
theorem c1_termination_once_cycle_witness :
    missing cycProj initState < 10 ∧ missing cycProj initState < 12 ∧
    checkComponentF 10 cycProj initState "pages/a" =
      checkComponentF 12 cycProj initState "pages/a" :=
  ⟨by decide, by decide,
    c1_termination_once_cycle.1 cycProj initState "pages/a" 10 12
      (by decide) (by decide)⟩

/-- C2 counterexample: on a project whose page `pages/a` is missing its
`.acss` sibling, the fatal bucket holds nothing under `pages/a`; the
single `Expect file` record sits in the warning bucket, because
`checkComponent` calls `addError` without a severity and the default is
`'warning'` (scanner.ts 287, 306).  This refutes the claim that the
error is fatal-severity. -/
theorem c2_counterexample :
    lookupA (check missProj initState).errors.fatal "pages/a" = none ∧
    lookupA (check missProj initState).errors.warning "pages/a" =
      some [{ message := some "Expect file: pages/a.acss" }] := by
  constructor <;> decide

/-- C2 (amended): when one of the four sibling files is missing, exactly
one error with message `Expect file: <name>` is recorded under the
component's key — at warning severity, not fatal; the fatal bucket is
untouched — the component is inserted with an empty dependency list and
no definitions, and no markup parse is attempted (the result only
depends on `s`, the entry and the first missing name). -/
theorem c2_missing_file (p : Project) (s : ScanState) (entry name : String)
    (fuel : Nat) (h1 : hasComp s entry = false)
    (h2 : firstMissing p entry = some name) :
    checkComponentF (fuel + 1) p s entry =
      { s with
        errors := addError s.errors entry
          [{ message := some ("Expect file: " ++ name) }] Sev.warning,
        components := setA s.components entry
          { entry := entry, deps := [], defs := none } } ∧
    (checkComponentF (fuel + 1) p s entry).errors.fatal = s.errors.fatal ∧
    lookupA (checkComponentF (fuel + 1) p s entry).errors.warning entry =
      some ((lookupA s.errors.warning entry).getD [] ++
        [{ message := some ("Expect file: " ++ name) }]) ∧
    lookupA (checkComponentF (fuel + 1) p s entry).components entry =
      some { entry := entry, deps := [], defs := none } := by
  have heq : checkComponentF (fuel + 1) p s entry = insertMissing s entry name := by
    rw [checkComponentF_succ]
    rw [if_neg (by simp [h1]), h2]
  refine ⟨heq, ?_, ?_, ?_⟩
  · rw [heq]
    rfl
  · rw [heq]
    unfold insertMissing addError
    dsimp only []
    exact lookupA_pushAt_self _ _ _
  · rw [heq]
    unfold insertMissing
    dsimp only []
    rw [lookupA_setA, if_pos rfl]

/-- C2 witness: the amended statement applied to the concrete project
missing `pages/a.acss`. -/
theorem c2_missing_file_witness :
    hasComp initState "pages/a" = false ∧
    firstMissing missProj "pages/a" = some "pages/a.acss" ∧
    (checkComponentF 1 missProj initState "pages/a").errors.fatal =
      initState.errors.fatal :=
  ⟨by decide, by decide,
    (c2_missing_file missProj initState "pages/a" "pages/a.acss" 0
      (by decide) (by decide)).2.1⟩

/-- C4 counterexample: on the project missing `pages/a.acss`, a second
`check()` yields a different Error Ledger than the first — the
per-component `Expect file` warning is not re-recorded because the
persisting component map short-circuits `checkComponent`. -/
theorem c4_counterexample :
    (check missProj (check missProj initState)).errors ≠
      (check missProj initState).errors := by
  decide

/-- C4 (amended): running a full `check()` twice on an unchanged project
yields an identical component map and page set, but not an identical
Error Ledger in general: the second run's ledger is exactly what the
orphan scan alone produces on a fresh ledger (only run-level
extraneous-components warnings; its fatal bucket is empty), so the two
ledgers agree only when the first run recorded nothing else. -/
theorem c4_second_run (p : Project) (s0 : ScanState) :
    (check p (check p s0)).components = (check p s0).components ∧
    (check p (check p s0)).pages = (check p s0).pages ∧
    (check p (check p s0)).errors =
      (checkUnused p (resetErrors (check p s0))).errors ∧
    (check p (check p s0)).errors.fatal = [] := by
  have hch : ∀ s : ScanState, check p s = checkUnused p (checkApp p (resetErrors s)) :=
    fun _ => rfl
  have hnoop : checkApp p (resetErrors (check p s0)) = resetErrors (check p s0) := by
    apply checkApp_noop
    · intro page hp
      show hasComp (resetErrors (check p s0)) page = true
      have h1 : hasComp (check p s0) page = true := by
        rw [hch]
        unfold hasComp
        rw [components_checkUnused]
        exact (checkApp_mem p (resetErrors s0) page hp).1
      exact h1
    · intro page hp
      show page ∈ (resetErrors (check p s0)).pages
      have h1 : page ∈ (check p s0).pages := by
        rw [hch]
        rw [pages_checkUnused]
        exact (checkApp_mem p (resetErrors s0) page hp).2
      exact h1
  refine ⟨?_, ?_, ?_, ?_⟩
  · rw [hch (check p s0), hnoop, components_checkUnused]
    rfl
  · rw [hch (check p s0), hnoop, pages_checkUnused]
    rfl
  · rw [hch (check p s0), hnoop]
  · rw [hch (check p s0), hnoop, fatal_checkUnused]
    rfl

/-- C5 counterexample: the component discovered by the first run on
`missProj` is still in the map at the start of the second run — right
after the ledger reset that opens `check()` — so the map is not rebuilt
from empty at the start of every run. -/
theorem c5_counterexample :
    hasComp (resetErrors (check missProj initState)) "pages/a" = true ∧
    (resetErrors (check missProj initState)).components ≠ [] := by
  constructor <;> decide

/-- C5 (amended): at the start of every `check()` invocation only the
error ledger is rebuilt from empty (scanner.ts 143); the component map
and page set persist across invocations on the same scanner, and the map
is empty only as the constructor leaves it. -/
theorem c5_reset_scope :
    (∀ s : ScanState, (resetErrors s).errors = emptyErrors ∧
      (resetErrors s).components = s.components ∧
      (resetErrors s).pages = s.pages) ∧
    initState.components = [] :=
  ⟨fun _ => ⟨rfl, rfl, rfl⟩, rfl⟩

/-- C10: the position-to-line/column translation is total exactly on
offsets within the input: for `offset ≤ input.length` it returns a
1-based line and column with the line index within the input's line
count, and for any larger offset the line scan walks past the last line
and the excerpt computation would read a nonexistent line — the
function fails (`none`, modelling the thrown `TypeError`). -/
theorem c10_reprStr_domain :
    ∀ (input : String) (offset : Nat) (message : String),
      (offset ≤ input.length →
        ∃ r, reprStr input offset message = some r ∧
          ∃ ln cl, r.line = some ln ∧ r.col = some cl ∧
            1 ≤ ln ∧ ln ≤ (splitLines input.data).length ∧ 1 ≤ cl) ∧
      (input.length < offset → reprStr input offset message = none) := by
  intro input offset message
  have hsum := splitOnChar_linesSum '\n' input.data
  have hlen : input.length = input.data.length := rfl
  constructor
  · intro hle
    have hlt : (reprLoop (splitLines input.data) offset).1 <
        (splitLines input.data).length := by
      apply reprLoop_lt
      unfold splitLines
      rw [hsum]
      omega
    unfold reprStr
    rw [dif_pos hlt]
    exact ⟨_, rfl, _, _, rfl, rfl, by omega, by omega, by omega⟩
  · intro hgt
    have heq : (reprLoop (splitLines input.data) offset).1 =
        (splitLines input.data).length := by
      apply reprLoop_eq_length
      unfold splitLines
      rw [hsum]
      omega
    unfold reprStr
    rw [dif_neg (by omega)]

/-- C10 witness: both branches at concrete inputs — an in-range offset
on a two-line input, and the first out-of-range offset. -/
theorem c10_reprStr_domain_witness :
    (∃ r, reprStr "ab\ncd" 4 "m" = some r ∧
      ∃ ln cl, r.line = some ln ∧ r.col = some cl ∧
        1 ≤ ln ∧ ln ≤ (splitLines ("ab\ncd" : String).data).length ∧ 1 ≤ cl) ∧
    reprStr "ab\ncd" 6 "m" = none :=
  ⟨(c10_reprStr_domain "ab\ncd" 4 "m").1 (by decide),
   (c10_reprStr_domain "ab\ncd" 6 "m").2 (by decide)⟩

/-- C3 counterexample: a text node containing `{{x}}{{y` (two open
markers, one close marker) yields zero `Unmatched brackets` warnings —
not the one the claim demands — because both marker strings are present
and the check is presence-based. -/
theorem c3_counterexample :
    msgCount (extractComponents bracketProj "pages/two" ⟨[]⟩ emptyErrors).2.warning
        "pages/two" "Unmatched brackets" = 0 ∧
    mismatch "\x7b\x7bx\x7d\x7d\x7b\x7by" = false := by
  constructor <;> decide

/-- C3 (amended): for a markup consisting of one text node, the number
of `Unmatched brackets` warnings recorded under the component's key
grows by one exactly when the open and close markers disagree in
presence; a value of only `{{` mismatches (one warning), `{{x}}` does
not (none), and `{{x}}{{y` does not either (none, since both markers
occur) — the last boundary case of the claim is wrong on the code. -/
theorem c3_delimiter_boundary (p : Project) (entry : String) (defs : Defs)
    (errs : Errors) (v : String) (po : Option Pos)
    (hn : (p.markup entry).nodes = [XNode.text v po])
    (hw : (p.markup entry).warnings = []) :
    msgCount (extractComponents p entry defs errs).2.warning entry
        "Unmatched brackets" =
      msgCount errs.warning entry "Unmatched brackets" +
        (if mismatch v then 1 else 0) ∧
    mismatch "\x7b\x7b" = true ∧
    mismatch "\x7b\x7bx\x7d\x7d" = false ∧
    mismatch "\x7b\x7bx\x7d\x7d\x7b\x7by" = false := by
  refine ⟨?_, by decide, by decide, by decide⟩
  unfold extractComponents
  dsimp only []
  rw [hw, hn]
  simp only [List.isEmpty_nil, if_true]
  rw [List.foldl_cons, List.foldl_nil, traverseStep_text]
  dsimp only []
  by_cases hmv : mismatch v = true
  · have hv : v ≠ "" := by
      intro hcontr
      rw [hcontr, mismatch_empty] at hmv
      simp at hmv
    rw [if_pos ⟨hv, hmv⟩]
    dsimp only []
    rw [List.foldl_nil]
    dsimp only []
    rw [unusedDefStep_foldl_count_frame entry unused_ne_unmatched]
    unfold msgCount
    rw [msgRecs_addError_warning, if_pos rfl]
    rw [if_pos hmv]
    have hmsg : (reprStrTotal (p.markup entry).content (offAfterOpen po)
        "Unmatched brackets").message = some "Unmatched brackets" :=
      reprStrTotal_message _ _ _
    simp [List.filter, hmsg]
  · rw [if_neg (fun hc => hmv hc.2)]
    dsimp only []
    rw [List.foldl_nil]
    dsimp only []
    rw [unusedDefStep_foldl_count_frame entry unused_ne_unmatched]
    rw [if_neg hmv]
    omega

/-- C3 witness: the amended count statement applied to the lone-`{{`
fixture, where exactly one warning is produced. -/
theorem c3_delimiter_boundary_witness :
    msgCount (extractComponents bracketProj "pages/open" ⟨[]⟩ emptyErrors).2.warning
        "pages/open" "Unmatched brackets" =
      msgCount emptyErrors.warning "pages/open" "Unmatched brackets" +
        (if mismatch "\x7b\x7b" then 1 else 0) :=
  (c3_delimiter_boundary bracketProj "pages/open" ⟨[]⟩ emptyErrors "\x7b\x7b"
    (some ⟨0, 2⟩) (by decide) (by decide)).1

/-- C6: each alias value resolves through exactly the three addressing
modes — leading `/` rooted at the project root, leading `.` joined
against the component's own directory, anything else against the
`node_modules` registry prefix — and the alias enters the definitions
map only if `<resolved>.json` exists; otherwise the alias is left out
(so later markup resolution cannot see it) and one fatal
`Component not found: <key>` record is added under the component. -/
theorem c6_alias_resolution (p : Project) (entry : String) (errs : Errors)
    (key value : String)
    (hnd : ((p.usingComponents entry).map Prod.fst).Nodup)
    (hmem : (key, value) ∈ p.usingComponents entry) :
    resolveAlias entry value =
      (if startsWith value "/" then value.drop 1
       else if startsWith value "." then pathJoin (dirname entry) value
       else "node_modules/" ++ value) ∧
    (fileExists p (resolveAlias entry value ++ ".json") = true →
      lookupA (extractDefinitions p entry errs).1.components key =
        some (resolveAlias entry value)) ∧
    (fileExists p (resolveAlias entry value ++ ".json") = false →
      lookupA (extractDefinitions p entry errs).1.components key = none ∧
      msgRecs (extractDefinitions p entry errs).2.fatal entry
          ("Component not found: " ++ key) =
        msgRecs errs.fatal entry ("Component not found: " ++ key) ++
          [{ message := some ("Component not found: " ++ key) }]) := by
  obtain ⟨L1, L2, hL⟩ := List.append_of_mem hmem
  rw [hL, List.map_append, List.map_cons, List.nodup_append] at hnd
  obtain ⟨hn1, hn2, hdisj⟩ := hnd
  have h1 : ∀ kv ∈ L1, kv.1 ≠ key := by
    intro kv hkv hcontr
    exact hdisj (List.mem_map_of_mem Prod.fst hkv) (by simp [hcontr])
  have h2 : ∀ kv ∈ L2, kv.1 ≠ key := by
    intro kv hkv hcontr
    have hkey := (List.nodup_cons.mp hn2).1
    have hmm : kv.1 ∈ L2.map Prod.fst := List.mem_map_of_mem Prod.fst hkv
    rw [hcontr] at hmm
    exact hkey hmm
  refine ⟨rfl, ?_, ?_⟩
  · intro hfe
    unfold extractDefinitions
    dsimp only []
    rw [hL, List.foldl_append, List.foldl_cons]
    rw [defStep_foldl_lookup_frame p entry L2 _ h2]
    rw [defStep_hit p entry key value _ hfe]
    dsimp only []
    rw [lookupA_setA, if_pos rfl]
  · intro hfe
    unfold extractDefinitions
    dsimp only []
    rw [hL, List.foldl_append, List.foldl_cons]
    rw [defStep_miss p entry key value _ hfe]
    constructor
    · rw [defStep_foldl_lookup_frame p entry L2 _ h2]
      dsimp only []
      rw [defStep_foldl_lookup_frame p entry L1 _ h1]
      rfl
    · rw [defStep_foldl_fatal_frame p entry L2 _ h2]
      dsimp only []
      rw [msgRecs_addError_fatal, if_pos rfl]
      rw [defStep_foldl_fatal_frame p entry L1 _ h1]
      simp [List.filter]

/-- C6 witness: the relative alias `bar → ./widgets/bar` of the fixture
project resolves to `pages/widgets/bar`, whose manifest exists, so it is
entered into the definitions map. -/
theorem c6_alias_resolution_witness :
    lookupA (extractDefinitions aliasProj "pages/a" emptyErrors).1.components "bar" =
      some (resolveAlias "pages/a" "./widgets/bar") :=
  (c6_alias_resolution aliasProj "pages/a" emptyErrors "bar" "./widgets/bar"
    (by decide) (by decide)).2.1 (by decide)

/-- C7: for each distinct element name collected from a component's
markup: a built-in name is resolved to the synthetic path `@@/<name>`
with no error; a name in the definitions map is resolved to that logical
path with no error; any other name stays unresolved and exactly one
fatal `Undefined component: <name>` record, positioned from the
element's open-tag offset, is appended under the component's key. -/
theorem c7_element_resolution (p : Project) (entry : String) (defs : Defs)
    (errs : Errors) (name : String) (node : XNode)
    (hmem : (name, node) ∈ depsOf (p.markup entry).nodes) :
    (builtIns.contains name = true →
      ({ node := node, modulePath := some ("@@/" ++ name) } : IDependency) ∈
        (extractComponents p entry defs errs).1 ∧
      msgRecs (extractComponents p entry defs errs).2.fatal entry
          ("Undefined component: " ++ name) =
        msgRecs errs.fatal entry ("Undefined component: " ++ name)) ∧
    (∀ mp : String, builtIns.contains name = false →
      lookupA defs.components name = some mp →
      ({ node := node, modulePath := some mp } : IDependency) ∈
        (extractComponents p entry defs errs).1 ∧
      msgRecs (extractComponents p entry defs errs).2.fatal entry
          ("Undefined component: " ++ name) =
        msgRecs errs.fatal entry ("Undefined component: " ++ name)) ∧
    (builtIns.contains name = false →
      lookupA defs.components name = none →
      ({ node := node, modulePath := none } : IDependency) ∈
        (extractComponents p entry defs errs).1 ∧
      msgRecs (extractComponents p entry defs errs).2.fatal entry
          ("Undefined component: " ++ name) =
        msgRecs errs.fatal entry ("Undefined component: " ++ name) ++
          [reprStrTotal (p.markup entry).content (offAtOpen node.posOpen)
            ("Undefined component: " ++ name)]) := by
  have hkey := extractComponents_fatal_key p entry defs errs hmem
  have hfst := extractComponents_fst p entry defs errs
  have hmm : resolveOne defs.components (name, node) ∈
      (extractComponents p entry defs errs).1 := by
    rw [hfst]
    exact List.mem_map_of_mem _ hmem
  refine ⟨?_, ?_, ?_⟩
  · intro hb
    constructor
    · have hres : resolveOne defs.components (name, node) =
          { node := node, modulePath := some ("@@/" ++ name) } := by
        rw [resolveOne_eq]
        dsimp only []
        rw [if_pos hb]
      rw [← hres]
      exact hmm
    · rw [hkey, if_pos hb, List.append_nil]
  · intro mp hb hl
    constructor
    · have hres : resolveOne defs.components (name, node) =
          { node := node, modulePath := some mp } := by
        rw [resolveOne_eq]
        dsimp only []
        rw [if_neg (by rw [hb]; exact Bool.false_ne_true), hl]
      rw [← hres]
      exact hmm
    · rw [hkey, if_neg (by rw [hb]; exact Bool.false_ne_true), hl, List.append_nil]
  · intro hb hl
    constructor
    · have hres : resolveOne defs.components (name, node) =
          { node := node, modulePath := none } := by
        rw [resolveOne_eq]
        dsimp only []
        rw [if_neg (by rw [hb]; exact Bool.false_ne_true), hl]
      rw [← hres]
      exact hmm
    · rw [hkey, if_neg (by rw [hb]; exact Bool.false_ne_true), hl]

/-- C7 witness: `<foo/>` with neither a built-in nor an aliased name
leaves the dependency unresolved and appends the positioned fatal
record. -/
theorem c7_element_resolution_witness :
    ({ node := XNode.element "foo" [] (some ⟨0, 5⟩), modulePath := none } :
        IDependency) ∈
      (extractComponents undefProj "pages/a" ⟨[]⟩ emptyErrors).1 ∧
    msgRecs (extractComponents undefProj "pages/a" ⟨[]⟩ emptyErrors).2.fatal
        "pages/a" ("Undefined component: " ++ "foo") =
      msgRecs emptyErrors.fatal "pages/a" ("Undefined component: " ++ "foo") ++
        [reprStrTotal (undefProj.markup "pages/a").content
          (offAtOpen (XNode.element "foo" [] (some ⟨0, 5⟩)).posOpen)
          ("Undefined component: " ++ "foo")] :=
  (c7_element_resolution undefProj "pages/a" ⟨[]⟩ emptyErrors "foo"
    (XNode.element "foo" [] (some ⟨0, 5⟩)) (by decide)).2.2 (by decide) (by decide)

/-- C8: when an element name is both built in and aliased, the built-in
wins: the dependency resolves to `@@/<name>` (and to the alias target
only if that target literally equals the synthetic path), while the
alias is never removed from the unused copy, so an
`Unused definition: <name>` warning is still reported. -/
theorem c8_builtin_precedence (p : Project) (entry : String) (defs : Defs)
    (errs : Errors) (name : String) (node : XNode) (mp : String)
    (hmem : (name, node) ∈ depsOf (p.markup entry).nodes)
    (hb : builtIns.contains name = true)
    (hl : lookupA defs.components name = some mp) :
    ({ node := node, modulePath := some ("@@/" ++ name) } : IDependency) ∈
      (extractComponents p entry defs errs).1 ∧
    (mp ≠ "@@/" ++ name →
      ({ node := node, modulePath := some mp } : IDependency) ∉
        (extractComponents p entry defs errs).1) ∧
    msgCount errs.warning entry ("Unused definition: " ++ name) + 1 ≤
      msgCount (extractComponents p entry defs errs).2.warning entry
        ("Unused definition: " ++ name) := by
  have hfst := extractComponents_fst p entry defs errs
  refine ⟨?_, ?_, extractComponents_unused_warning p entry defs errs hb hl⟩
  · have hres : resolveOne defs.components (name, node) =
        { node := node, modulePath := some ("@@/" ++ name) } := by
      rw [resolveOne_eq]
      dsimp only []
      rw [if_pos hb]
    rw [hfst, ← hres]
    exact List.mem_map_of_mem _ hmem
  · intro hne hcontra
    rw [hfst] at hcontra
    obtain ⟨nd, hnd, heq⟩ := List.mem_map.mp hcontra
    have hnode : nd.2 = node := by
      have hh := resolveOne_node defs.components nd
      rw [heq] at hh
      exact hh.symm
    obtain ⟨attrs0, po0, hshape⟩ := depsOf_name_eq hmem
    obtain ⟨attrs1, po1, hshape1⟩ := depsOf_name_eq hnd
    dsimp only [] at hshape hshape1
    have hn1 : nd.1 = name := by
      rw [hnode, hshape] at hshape1
      injection hshape1 with e1 e2 e3
      exact e1.symm
    have hres : resolveOne defs.components nd =
        { node := nd.2, modulePath := some ("@@/" ++ nd.1) } := by
      rw [resolveOne_eq]
      rw [if_pos (by rw [hn1]; exact hb)]
    rw [hres] at heq
    simp only [IDependency.mk.injEq, Option.some.injEq] at heq
    exact hne (by rw [← heq.2, hn1])

/-- C8 witness: `<view/>` shadowing the alias `view → pages/v`. -/
theorem c8_builtin_precedence_witness :
    ({ node := XNode.element "view" [] (some ⟨0, 6⟩),
       modulePath := some ("@@/" ++ "view") } : IDependency) ∈
      (extractComponents shadowProj "pages/a" ⟨[("view", "pages/v")]⟩
        emptyErrors).1 ∧
    msgCount emptyErrors.warning "pages/a" ("Unused definition: " ++ "view") + 1 ≤
      msgCount (extractComponents shadowProj "pages/a" ⟨[("view", "pages/v")]⟩
          emptyErrors).2.warning "pages/a" ("Unused definition: " ++ "view") := by
  have h := c8_builtin_precedence shadowProj "pages/a" ⟨[("view", "pages/v")]⟩
    emptyErrors "view" (XNode.element "view" [] (some ⟨0, 6⟩)) "pages/v"
    (by decide) (by decide) (by decide)
  exact ⟨h.1, h.2.2⟩

/-- C9: after a full run, every definition-map target of every recorded
component — including aliases no markup element ever references — is
itself present in the component map, and no path present in the map is
collected by the extraneous-components scan. -/
theorem c9_defs_targets_checked (p : Project) :
    (∀ kv ∈ (check p initState).components, ∀ d : Defs, kv.2.defs = some d →
      ∀ ab ∈ d.components, hasComp (check p initState) ab.2 = true) ∧
    (∀ mp : String, hasComp (check p initState) mp = true →
      mp ∉ unusedList p (check p initState)) := by
  constructor
  · intro kv hkv d hd ab hab
    rcases invP_check p initState invP_initState kv hkv d hd ab hab with h | h
    · exact h
    · simp at h
  · intro mp hmp hcontr
    have hfalse := hasComp_false_of_mem_unusedList hcontr
    rw [hmp] at hfalse
    simp at hfalse

/-- C9 witness: `pages/c`, reachable only through the never-referenced
alias `c` of `pages/a`, is nevertheless checked and recorded. -/
theorem c9_defs_targets_checked_witness :
    hasComp (check unusedAliasProj initState) "pages/c" = true :=
  (c9_defs_targets_checked unusedAliasProj).1
    ("pages/a",
      { entry := "pages/a", deps := [], defs := some ⟨[("c", "pages/c")]⟩ })
    (by decide) ⟨[("c", "pages/c")]⟩ (by decide) ("c", "pages/c") (by decide)

end Appx


